import Mathlib

/-!
Shallow embedding of the godbot compiler-bot core (src/bot.py and
playground/dead.py): the ANSI interpreter (`escape_ansi`, `convert_ansi`),
the reply formatter (`MessageWriter`), the semantic-version model
(python-semver `Version`) and the compiler registry (`CompilerRegistry`).
Strings are modelled as `List Char` (Python strings are sequences of
code points).  Loops that are not structurally recursive in Python are
modelled with an explicit fuel argument equal to the input length, which
is always sufficient for the terminating executions of the source.
-/

namespace Godbot

/-! ## Basic character utilities -/

def esc : Char := '\x1b'

/-- Characters matched by the regex class `[\d;]` in the ANSI pattern. -/
def isParamChar (c : Char) : Bool := c.isDigit || c = ';'

/-- Numeric value of a digit string, as Python `int` computes it on
all-digit input (`int(s)`). -/
def digVal (s : List Char) : Nat := s.foldl (fun a c => 10 * a + (c.toNat - 48)) 0

/-- Digits of a natural number, as Python `str(n)` renders it; fuel-based
division loop. -/
def natDigsGo : Nat → Nat → List Char
  | 0, _ => []
  | fuel + 1, n =>
    if n < 10 then [Char.ofNat (48 + n)]
    else natDigsGo fuel (n / 10) ++ [Char.ofNat (48 + n % 10)]

def natRepr (n : Nat) : List Char := natDigsGo (n + 1) n

/-- Python string comparison: lexicographic on code points. -/
def strCmp : List Char → List Char → Ordering
  | [], [] => .eq
  | [], _ :: _ => .lt
  | _ :: _, [] => .gt
  | a :: as, b :: bs => (compare a.toNat b.toNat).then (strCmp as bs)

/-- Python `s.split(';')`: splitting the empty string yields one empty piece. -/
def splitSemis : List Char → List (List Char)
  | [] => [[]]
  | c :: cs =>
    if c = ';' then [] :: splitSemis cs
    else
      match splitSemis cs with
      | p :: ps => (c :: p) :: ps
      | [] => [[c]]

/-- Python `s.split('.')`. -/
def splitDots : List Char → List (List Char)
  | [] => [[]]
  | c :: cs =>
    if c = '.' then [] :: splitDots cs
    else
      match splitDots cs with
      | p :: ps => (c :: p) :: ps
      | [] => [[c]]

/-- Inverse of `splitDots`: re-join pieces with dots. -/
def joinDots : List (List Char) → List Char
  | [] => []
  | [p] => p
  | p :: q :: ps => p ++ '.' :: joinDots (q :: ps)

/-! ## AnsiInterpreter: `escape_ansi` (bot.py lines 120-124)

The regex `\x1b\[([\d;]*?)m` matches an escape marker, `[`, a run of
digits/semicolons, and a terminating `m`; because `m` is excluded from the
class, the lazy quantifier is equivalent to the maximal run followed by `m`. -/

/-- Try to match `([\d;]*?)m` at the head of the input, returning the
parameter group and the remainder after the `m`. -/
def matchParams : List Char → Option (List Char × List Char)
  | [] => none
  | c :: cs =>
    if c = 'm' then some ([], cs)
    else if isParamChar c then (matchParams cs).map (fun pr => (c :: pr.1, pr.2))
    else none

/-- One pass of `re.sub(r'\x1b\[([\d;]*?)m', '', text)`: leftmost,
non-overlapping matches are removed; scanning resumes after each match.
Fuel is the remaining input length. -/
def subAnsiGo : Nat → List Char → List Char
  | 0, s => s
  | _ + 1, [] => []
  | fuel + 1, c :: cs =>
    if c = esc then
      match cs with
      | '[' :: r =>
        match matchParams r with
        | some pr => subAnsiGo fuel pr.2
        | none => c :: subAnsiGo fuel cs
      | _ => c :: subAnsiGo fuel cs
    else c :: subAnsiGo fuel cs

def subAnsi (s : List Char) : List Char := subAnsiGo s.length s

/-- Python `text.replace('\x1b[K', '')`: remove every occurrence of the
three-character erase-line sequence, left to right. -/
def replaceK : List Char → List Char
  | a :: b :: k :: rest =>
    if a = esc ∧ b = '[' ∧ k = 'K' then replaceK rest
    else a :: replaceK (b :: k :: rest)
  | s => s

/-- `escape_ansi`: strip ANSI escape codes (bot.py lines 120-124). -/
def escape_ansi (s : List Char) : List Char := replaceK (subAnsi s)

/-- Decidable check: the input contains an occurrence of the recognized
`ESC [ params m` escape-sequence pattern. -/
def hasCSIm : List Char → Bool
  | [] => false
  | [_] => false
  | c :: c2 :: cs => (c = esc && c2 = '[' && (matchParams cs).isSome) || hasCSIm (c2 :: cs)

/-- Decidable check: the input contains the erase-line sequence `ESC [ K`. -/
def hasEraseK : List Char → Bool
  | a :: b :: k :: rest => (a = esc ∧ b = '[' ∧ k = 'K' : Bool) || hasEraseK (b :: k :: rest)
  | _ => false

/-! ## AnsiInterpreter: `convert_ansi` (playground/dead.py) -/

/-- HTML escaping of `&`, `<`, `>`, applied in that order as the three
successive `str.replace` calls do. -/
def replAmp (c : Char) : List Char := if c = '&' then "&amp;".data else [c]
def replLt (c : Char) : List Char := if c = '<' then "&lt;".data else [c]
def replGt (c : Char) : List Char := if c = '>' then "&gt;".data else [c]

def htmlEscape (s : List Char) : List Char :=
  ((s.flatMap replAmp).flatMap replLt).flatMap replGt

/-- The `ansi_to_html` style table of `convert_ansi`. -/
def ansi_to_html (n : Nat) : Option (List Char) :=
  match n with
  | 1 => some "font-weight: bold".data
  | 4 => some "text-decoration: underline".data
  | 7 => some "text-decoration: reverse".data
  | 30 => some "color: #000000".data
  | 31 => some "color: #ff0000".data
  | 32 => some "color: #00ff00".data
  | 33 => some "color: #ffff00".data
  | 34 => some "color: #0000ff".data
  | 35 => some "color: #ff00ff".data
  | 36 => some "color: #00ffff".data
  | 37 => some "color: #ffffff".data
  | 40 => some "background-color: #000000".data
  | 41 => some "background-color: #ff0000".data
  | 42 => some "background-color: #00ff00".data
  | 43 => some "background-color: #ffff00".data
  | 44 => some "background-color: #0000ff".data
  | 45 => some "background-color: #ff00ff".data
  | 46 => some "background-color: #00ffff".data
  | 47 => some "background-color: #ffffff".data
  | _ => none

/-- Python `proces_param`: `int(param) if param else 0`.  Fails (raises
`ValueError`, modelled as `none`) when the piece is non-empty and not all
digits. -/
def procesParam (s : List Char) : Option Nat :=
  if s.isEmpty then some 0
  else if s.all Char.isDigit then some (digVal s) else none

/-- Fragment scanner of `convert_ansi`: walks the text, cutting a fragment
at every recognized escape sequence.  Each fragment carries the split
parameter pieces of the sequence *preceding* it (the first fragment carries
the initial empty parameter list).  Fuel is the remaining input length. -/
def fragsGo : Nat → List (List Char) → List Char → List Char →
    List (List (List Char) × List Char)
  | 0, ps, acc, s => [(ps, acc.reverse ++ s)]
  | _ + 1, ps, acc, [] => [(ps, acc.reverse)]
  | fuel + 1, ps, acc, c :: cs =>
    if c = esc then
      match cs with
      | '[' :: r =>
        match matchParams r with
        | some pr => (ps, acc.reverse) :: fragsGo fuel (splitSemis pr.1) [] pr.2
        | none => fragsGo fuel ps (c :: acc) cs
      | _ => fragsGo fuel ps (c :: acc) cs
    else fragsGo fuel ps (c :: acc) cs

def fragments (s : List Char) : List (List (List Char) × List Char) :=
  fragsGo s.length [] [] s

/-- Join style attributes with `"; "` as `"; ".join(html_attrs)` does. -/
def joinStyles : List (List Char) → List Char
  | [] => []
  | [a] => a
  | a :: as => a ++ "; ".data ++ joinStyles as

/-- The attribute-list update of one fragment: a parameter list containing
0 (or empty) resets to empty, otherwise the recognized parameters are
appended to the current attributes. -/
def nextAttrs (attrs : List (List Char)) (ps : List Nat) : List (List Char) :=
  if ps.contains 0 || ps.isEmpty then [] else attrs ++ ps.filterMap ansi_to_html

/-- The rendering loop of `convert_ansi`: folds over fragments carrying the
active attribute list.  Parameter-integer conversion can fail, which is the
only failure point of the whole function. -/
def renderFrags (attrs : List (List Char)) :
    List (List (List Char) × List Char) → Option (List Char)
  | [] => some []
  | (rawps, txt) :: rest =>
    (rawps.mapM procesParam).bind fun ps =>
      (renderFrags (nextAttrs attrs ps) rest).bind fun tail =>
        if txt.isEmpty then some tail
        else if (nextAttrs attrs ps).isEmpty then some (txt ++ tail)
        else some ("<span style=\"".data ++ joinStyles (nextAttrs attrs ps) ++ "\">".data ++
                   txt ++ "</span>".data ++ tail)

/-- `convert_ansi` (playground/dead.py lines 1-72): HTML-escape, scan into
fragments, render with the accumulating style state. -/
def convert_ansi (s : List Char) : Option (List Char) :=
  renderFrags [] (fragments (htmlEscape s))

/-! ## ReplyFormatter: `MessageWriter` (bot.py lines 84-113)

A chunk is modelled as a list of segments, each either a fence marker
(the four characters appended by the code, ```` ``` ```` plus newline) or a
piece of raw text appended by `_add_block`.  Rendering a chunk by
concatenating its segments yields exactly the Python chunk string; the
segment structure additionally records which characters are the fence
markers that the formatter itself inserted. -/

inductive Seg where
  | fence : Seg
  | text : List Char → Seg
  deriving DecidableEq

def renderSeg : Seg → List Char
  | .fence => "```\n".data
  | .text s => s

def renderChunk (c : List Seg) : List Char := (c.map renderSeg).flatten

/-- Length of the chunk string, as Python `len(self.messages[-1])`. -/
def chunkLen (c : List Seg) : Nat := (renderChunk c).length

/-- The chunk text with the formatter-inserted fence markers removed. -/
def payload (c : List Seg) : List Char :=
  (c.filterMap fun s => match s with | .fence => none | .text t => some t).flatten

def fenceCount (c : List Seg) : Nat := c.count Seg.fence

structure MessageWriter where
  max_size : Nat
  done : List (List Seg)
  cur : List Seg
  code_mode : Bool
  deriving DecidableEq

/-- `MessageWriter.__init__`: `messages = [""]`, `code_mode = False`. -/
def MessageWriter.init (L : Nat) : MessageWriter := ⟨L, [], [], false⟩

/-- The `messages` list: finished chunks followed by the chunk being built. -/
def MessageWriter.chunks (w : MessageWriter) : List (List Seg) := w.done ++ [w.cur]

def MessageWriter.messages (w : MessageWriter) : List (List Char) :=
  w.chunks.map renderChunk

/-- `MessageWriter._add_block` (bot.py lines 106-113). -/
def MessageWriter._add_block (w : MessageWriter) (line : List Char) : MessageWriter :=
  if w.max_size < chunkLen w.cur + line.length then
    { w with
      done := w.done ++ [if w.code_mode then w.cur ++ [Seg.fence] else w.cur]
      cur := (if w.code_mode then [Seg.fence] else []) ++ [Seg.text line] }
  else { w with cur := w.cur ++ [Seg.text line] }

/-- The slicing loop of `add_line`: `while len(line) > max_size` cut off a
prefix of length `max_size`.  Fuel is the input length, sufficient whenever
`max_size ≥ 1` (with `max_size = 0` the Python loop does not terminate). -/
def splitGo (L : Nat) : Nat → List Char → List (List Char)
  | 0, s => [s]
  | fuel + 1, s => if L < s.length then s.take L :: splitGo L fuel (s.drop L) else [s]

def splitLine (L : Nat) (s : List Char) : List (List Char) := splitGo L s.length s

/-- `MessageWriter.add_line` (bot.py lines 90-96). -/
def MessageWriter.add_line (w : MessageWriter) (line : List Char) : MessageWriter :=
  (splitLine w.max_size (line ++ ['\n'])).foldl MessageWriter._add_block w

/-- `MessageWriter.set_code_mode` (bot.py lines 98-100). -/
def MessageWriter.set_code_mode (w : MessageWriter) : MessageWriter :=
  { w with cur := w.cur ++ [Seg.fence], code_mode := true }

/-- `MessageWriter.set_plain_mode` (bot.py lines 102-104). -/
def MessageWriter.set_plain_mode (w : MessageWriter) : MessageWriter :=
  { w with cur := w.cur ++ [Seg.fence], code_mode := false }

/-- One public operation on the writer. -/
inductive Op where
  | addLine : List Char → Op
  | enterCode : Op
  | exitCode : Op
  deriving DecidableEq

def stepOp (w : MessageWriter) : Op → MessageWriter
  | .addLine s => w.add_line s
  | .enterCode => w.set_code_mode
  | .exitCode => w.set_plain_mode

def runOps (w : MessageWriter) (ops : List Op) : MessageWriter := ops.foldl stepOp w

/-- The line each operation contributes to the output text (lines are
terminated with the newline `add_line` appends). -/
def opLine : Op → Option (List Char)
  | .addLine s => some (s ++ ['\n'])
  | _ => none

/-! ## SemanticVersion: python-semver `Version`

The parts of the `semver` package the bot exercises: `Version.parse`
(with and without `optional_minor_and_patch`), the rich comparisons
(numeric triple, then prerelease via `_nat_cmp`; build metadata ignored),
`bump_patch`, `to_tuple` and `str()`. -/

structure Version where
  major : Nat
  minor : Nat
  patch : Nat
  prerelease : Option (List Char)
  build : Option (List Char)
  deriving DecidableEq

/-- A prerelease identifier as `_nat_cmp` classifies it: all-digit pieces
become integers, everything else stays a string. -/
def toIdent (s : List Char) : Nat ⊕ List Char :=
  if s ≠ [] ∧ s.all Char.isDigit then .inl (digVal s) else .inr s

/-- `cmp_prerelease_tag`: integers compare numerically and sort below
strings; strings compare lexicographically by code point. -/
def tagCmp : Nat ⊕ List Char → Nat ⊕ List Char → Ordering
  | .inl a, .inl b => compare a b
  | .inl _, .inr _ => .lt
  | .inr _, .inl _ => .gt
  | .inr a, .inr b => strCmp a b

/-- The `zip` loop of `_nat_cmp`: compare pairwise up to the shorter list. -/
def zipCmp : List (Nat ⊕ List Char) → List (Nat ⊕ List Char) → Ordering
  | [], _ => .eq
  | _ :: _, [] => .eq
  | a :: as, b :: bs => (tagCmp a b).then (zipCmp as bs)

def idsOf (s : List Char) : List (Nat ⊕ List Char) := (splitDots s).map toIdent

/-- `_nat_cmp(a, b)`: zip-compare the dot-separated identifiers, then break
ties on the raw string lengths. -/
def natCmp (a b : List Char) : Ordering :=
  (zipCmp (idsOf a) (idsOf b)).then (compare a.length b.length)

/-- Prerelease comparison of `Version._compare`: `None` is coerced to the
empty string for `_nat_cmp`, and a version without prerelease sorts above
one with. -/
def preCmp (a b : Option (List Char)) : Ordering :=
  let a' := a.getD []
  let b' := b.getD []
  let r := natCmp a' b'
  if r = .eq then .eq
  else if a'.isEmpty then .gt
  else if b'.isEmpty then .lt
  else r

/-- `Version._compare`: numeric triple lexicographically, then prerelease.
Build metadata is ignored. -/
def vcmp (a b : Version) : Ordering :=
  (compare a.major b.major).then
    ((compare a.minor b.minor).then
      ((compare a.patch b.patch).then (preCmp a.prerelease b.prerelease)))

/-- `Version.bump_patch`: increment patch, clear prerelease and build. -/
def bump_patch (v : Version) : Version := ⟨v.major, v.minor, v.patch + 1, none, none⟩

/-- `str(Version)`: `major.minor.patch[-prerelease][+build]`. -/
def verStr (v : Version) : List Char :=
  natRepr v.major ++ '.' :: natRepr v.minor ++ '.' :: natRepr v.patch ++
    (match v.prerelease with | some p => '-' :: p | none => []) ++
    (match v.build with | some b => '+' :: b | none => [])

/-! ### `Version.parse`

The semver regex: each numeric part is `0|[1-9]\d*`; the prerelease is
dot-separated identifiers `0|[1-9]\d*|\d*[a-zA-Z-][0-9a-zA-Z-]*`; the build
is dot-separated identifiers `[0-9a-zA-Z-]+`.  With
`optional_minor_and_patch` the minor and patch parts may be absent and
default to 0. -/

/-- A valid numeric part: non-empty digits, no leading zero unless "0". -/
def numIdOk (s : List Char) : Bool :=
  match s with
  | [] => false
  | c :: cs => c.isDigit && cs.all Char.isDigit && (c ≠ '0' || cs = [])

def identChar (c : Char) : Bool := c.isDigit || c.isUpper || c.isLower || c = '-'

/-- A valid prerelease identifier: `0|[1-9]\d*|\d*[a-zA-Z-][0-9a-zA-Z-]*`. -/
def preIdOk (s : List Char) : Bool :=
  s ≠ [] && s.all identChar && (s.all Char.isDigit → numIdOk s)

/-- A valid build identifier: `[0-9a-zA-Z-]+`. -/
def buildIdOk (s : List Char) : Bool := s ≠ [] && s.all identChar

def preOk (s : List Char) : Bool := (splitDots s).all preIdOk

def buildOk (s : List Char) : Bool := (splitDots s).all buildIdOk

def spanDigits (s : List Char) : List Char × List Char :=
  (s.takeWhile Char.isDigit, s.dropWhile Char.isDigit)

/-- Parse the optional `-prerelease` / `+build` tail after the numeric
parts. -/
def parseSuffix : List Char → Option (Option (List Char) × Option (List Char))
  | [] => some (none, none)
  | '+' :: b => if buildOk b then some (none, some b) else none
  | '-' :: rest =>
    let p := rest.takeWhile (· ≠ '+')
    if preOk p then
      match rest.dropWhile (· ≠ '+') with
      | [] => some (some p, none)
      | _ :: b => if buildOk b then some (some p, some b) else none
    else none
  | _ => none

/-- `Version.parse(text, optional_minor_and_patch=opt)`; `none` models the
`ValueError` on strings the regex rejects. -/
def parseVer (opt : Bool) (s : List Char) : Option Version :=
  let (maj, r1) := spanDigits s
  if numIdOk maj = false then none
  else
    match r1 with
    | '.' :: r2 =>
      let (mi, r3) := spanDigits r2
      if numIdOk mi = false then none
      else
        match r3 with
        | '.' :: r4 =>
          let (pa, r5) := spanDigits r4
          if numIdOk pa = false then none
          else (parseSuffix r5).map fun pb => ⟨digVal maj, digVal mi, digVal pa, pb.1, pb.2⟩
        | _ =>
          if opt then (parseSuffix r3).map fun pb => ⟨digVal maj, digVal mi, 0, pb.1, pb.2⟩
          else none
    | _ =>
      if opt then (parseSuffix r1).map fun pb => ⟨digVal maj, 0, 0, pb.1, pb.2⟩
      else none

/-- A structured version whose prerelease (if any) consists of valid
identifiers — true of every version `Version.parse` produces.  Needed
because python-semver's prerelease comparison is only well-behaved on
parsed prereleases. -/
def validVer (v : Version) : Bool :=
  match v.prerelease with
  | none => true
  | some p => preOk p

/-- Validity of a dynamic version attribute: opaque strings are trivially
valid, structured versions must have a valid prerelease. -/
def dynValid : Version ⊕ List Char → Bool
  | .inl v => validVer v
  | .inr _ => true

/-! ## `Compiler` (bot.py lines 379-402) -/

/-- A version attribute at run time: a parsed `Version` or the raw string
kept after a `ValueError` (Python duck typing). -/
abbrev VerDyn := Version ⊕ List Char

def okCmdChar (c : Char) : Bool := c.isDigit || c.isUpper || c.isLower || c = '_'

/-- First substitution of `clean_command`: `re.sub(r'[^a-zA-Z0-9_]', '_', s)`. -/
def underscoreBad (s : List Char) : List Char :=
  s.map fun c => if okCmdChar c then c else '_'

/-- Second substitution: `re.sub(r'_{2,}', '_', s)` collapses each maximal
run of two or more underscores to one. -/
def collapseU : List Char → List Char
  | [] => []
  | [c] => [c]
  | c :: d :: rest =>
    if c = '_' ∧ d = '_' then collapseU (d :: rest)
    else c :: collapseU (d :: rest)

/-- `Compiler.clean_command` (bot.py lines 399-402). -/
def clean_command (s : List Char) : List Char := collapseU (underscoreBad s)

/-- Decidable check: the string contains two consecutive underscores. -/
def hasDoubleU : List Char → Bool
  | [] => false
  | [_] => false
  | c :: d :: rest => (c = '_' && d = '_') || hasDoubleU (d :: rest)

def matchGNum : List Char → Bool
  | 'g' :: d :: _ => d.isDigit
  | _ => false

def matchClangNum : List Char → Bool
  | 'c' :: 'l' :: 'a' :: 'n' :: 'g' :: d :: _ => d.isDigit
  | _ => false

/-- `Compiler.get_name` (bot.py lines 390-397): `re.match(r'g\d+', ...)`
maps to "gcc", `re.match(r'clang\d+', ...)` to "clang", otherwise `None`. -/
def get_name (s : List Char) : Option (List Char) :=
  if matchGNum s then some "gcc".data
  else if matchClangNum s then some "clang".data
  else none

structure Compiler where
  id : List Char
  title : List Char
  command : List Char
  name : Option (List Char)
  ver : VerDyn
  deriving DecidableEq

/-- `Compiler.__init__` (bot.py lines 380-388): clean the command (the id
when no explicit command is given), derive the toolchain name, parse the
version with `optional_minor_and_patch=True`, falling back to the raw
string on `ValueError`. -/
def Compiler.make (id ver title : List Char) (command : Option (List Char)) : Compiler :=
  { id := id
    title := title
    command := clean_command (command.getD id)
    name := get_name id
    ver := match parseVer true ver with
           | some v => .inl v
           | none => .inr ver }

/-! ## `CompilerRegistry` (bot.py lines 422-519) -/

/-- One record of the remote compiler list consumed by `load`. -/
structure RawCompiler where
  id : List Char
  title : List Char
  lang : List Char
  instructionSet : List Char
  semver : List Char
  deriving DecidableEq

/-- The guard of the `_add_latest_compiler` scan:
`isinstance(compiler.ver, Version) and (latest is None or compiler.ver >
latest.ver)`.  A stored best always has a structured version, so the
string case for it is unreachable. -/
def beatsLatest (c : Compiler) (latest : Option Compiler) : Bool :=
  match c.ver, latest with
  | .inl _, none => true
  | .inl v, some l =>
    match l.ver with
    | .inl lv => vcmp v lv = .gt
    | .inr _ => false
  | .inr _, _ => false

/-- The scan of `_add_latest_compiler`: keep the first compiler of the
toolchain with a structured version that is strictly greater than the
current best (`compiler.ver > latest.ver`). -/
def findLatest (name : List Char) (cs : List Compiler) : Option Compiler :=
  cs.foldl
    (fun latest c =>
      if c.name = some name ∧ beatsLatest c latest then some c else latest)
    none

/-- `_add_latest_compiler` (bot.py lines 448-456): append an alias whose
command is the toolchain name and whose version string is `'(latest)'`
(which fails to parse, so the alias keeps it as an opaque version). -/
def _add_latest_compiler (name : List Char) (cs : List Compiler) : List Compiler :=
  match findLatest name cs with
  | some latest => cs ++ [Compiler.make latest.id "(latest)".data latest.title (some name)]
  | none => cs

/-- Python `f'{c.name}'`: `None` prints as "None". -/
def nameStr (n : Option (List Char)) : List Char := n.getD "None".data

/-- The version components kept for a trimmed alias: from major downward,
stopping just before the first zero. -/
def trimParts (v : Version) : List (List Char) :=
  ([v.major, v.minor, v.patch].takeWhile (· ≠ 0)).map natRepr

def joinUnderscore : List (List Char) → List Char
  | [] => []
  | [p] => p
  | p :: ps => p ++ '_' :: joinUnderscore ps

/-- The alias a single descriptor contributes in `_add_complier_aliases`:
only fully structured versions (no prerelease, no build) with non-zero
major produce one. -/
def trimAlias (c : Compiler) : Option Compiler :=
  match c.ver with
  | .inr _ => none
  | .inl v =>
    if v.prerelease = none ∧ v.build = none then
      if trimParts v = [] then none
      else some (Compiler.make c.id (verStr v) c.title
        (some (nameStr c.name ++ '-' :: joinUnderscore (trimParts v))))
    else none

/-- `_add_complier_aliases` (bot.py lines 458-476). -/
def _add_complier_aliases (cs : List Compiler) : List Compiler :=
  cs ++ cs.filterMap trimAlias

/-- `CompilerRegistry.load` (bot.py lines 430-446) applied to the decoded
remote descriptor list: filter to c++/amd64, build primary descriptors,
append the latest aliases for gcc and clang, then the trimmed aliases. -/
def load (raws : List RawCompiler) : List Compiler :=
  let primaries := raws.filterMap fun r =>
    if r.lang = "c++".data ∧ r.instructionSet = "amd64".data then
      some (Compiler.make r.id r.semver r.title none)
    else none
  _add_complier_aliases
    (_add_latest_compiler "clang".data (_add_latest_compiler "gcc".data primaries))

/-- `get_compiler_by_command` (bot.py lines 478-482): first match wins;
`none` models the `ValueError` on no match. -/
def get_compiler_by_command (cs : List Compiler) (command : List Char) : Option Compiler :=
  cs.find? (fun c => c.command = command)

/-! ### `get_compiler` / `get_compiler_exact` (bot.py lines 484-519)

Python exceptions are modelled by `Except`: `notFound` for the explicit
`raise ValueError(... not found)`, `cmpError` for the `ValueError` a rich
comparison raises when it has to parse an unparseable opaque version, and
`typeError` for the `TypeError` `Version.parse` raises when handed a
`Version` instance instead of a string. -/

inductive PyErr where
  | notFound : PyErr
  | cmpError : PyErr
  | typeError : PyErr
  deriving DecidableEq

/-- `compiler.ver >= ver` with `ver` a `Version`: an opaque string on the
left is parsed (strictly) by the reflected comparison and raises
`ValueError` when unparseable. -/
def dynGe (a : VerDyn) (v : Version) : Except PyErr Bool :=
  match a with
  | .inl w => .ok (vcmp w v ≠ .lt)
  | .inr s =>
    match parseVer false s with
    | some w => .ok (vcmp w v ≠ .lt)
    | none => .error .cmpError

/-- `compiler.ver < maxVer`, same conventions. -/
def dynLt (a : VerDyn) (v : Version) : Except PyErr Bool :=
  match a with
  | .inl w => .ok (vcmp w v = .lt)
  | .inr s =>
    match parseVer false s with
    | some w => .ok (vcmp w v = .lt)
    | none => .error .cmpError

/-- `compiler.ver > bestVer` between two dynamic values: two strings
compare lexicographically, mixed cases parse the string side. -/
def dynGt (a b : VerDyn) : Except PyErr Bool :=
  match a, b with
  | .inl v, .inl w => .ok (vcmp v w = .gt)
  | .inr s, .inr t => .ok (strCmp s t = .gt)
  | .inl v, .inr t =>
    match parseVer false t with
    | some w => .ok (vcmp v w = .gt)
    | none => .error .cmpError
  | .inr s, .inl w =>
    match parseVer false s with
    | some v => .ok (vcmp v w = .gt)
    | none => .error .cmpError

/-- `compiler.ver == ver` between two dynamic values: `Version` equality is
`_compare == 0`, string/string is string equality, mixed cases parse the
string side. -/
def dynEq (a b : VerDyn) : Except PyErr Bool :=
  match a, b with
  | .inl v, .inl w => .ok (vcmp v w = .eq)
  | .inr s, .inr t => .ok (s = t)
  | .inl v, .inr t =>
    match parseVer false t with
    | some w => .ok (vcmp v w = .eq)
    | none => .error .cmpError
  | .inr s, .inl w =>
    match parseVer false s with
    | some v => .ok (vcmp v w = .eq)
    | none => .error .cmpError

/-- The scan of `get_compiler_exact`. -/
def findEq (name : List Char) (ver : VerDyn) : List Compiler → Except PyErr Compiler
  | [] => .error .notFound
  | c :: rest =>
    if c.name = some name then do
      let e ← dynEq c.ver ver
      if e then .ok c else findEq name ver rest
    else findEq name ver rest

/-- `get_compiler_exact` (bot.py lines 507-519).  Its `version` argument is
dynamically typed: `Version.parse` on a `Version` instance raises
`TypeError`, which the `except ValueError` does not catch. -/
def get_compiler_exact (cs : List Compiler) (name : List Char) (version : VerDyn) :
    Except PyErr Compiler :=
  match version with
  | .inl _ => .error .typeError
  | .inr s =>
    let ver : VerDyn :=
      match parseVer false s with
      | some v => .inl v
      | none => .inr s
    findEq name ver cs

/-- The range scan of `get_compiler`: `bestVer` holds the raw `compiler.ver`
attribute of the best match so far. -/
def scanRange (name : List Char) (v maxV : Version) :
    List Compiler → Option VerDyn → Except PyErr (Option VerDyn)
  | [], best => .ok best
  | c :: rest, best =>
    if c.name = some name then do
      let ge ← dynGe c.ver v
      if ge then do
        let lt ← dynLt c.ver maxV
        if lt then do
          let upd ← match best with
                    | none => pure true
                    | some b => dynGt c.ver b
          scanRange name v maxV rest (if upd then some c.ver else best)
        else scanRange name v maxV rest best
      else scanRange name v maxV rest best
    else scanRange name v maxV rest best

/-- `get_compiler` (bot.py lines 484-505): parse the version query
(strictly); an opaque query delegates to the exact lookup; a structured one
scans the half-open range `[ver, bump_patch(ver))` keeping the maximum and
then delegates to the exact lookup with the chosen version *object*. -/
def get_compiler (cs : List Compiler) (name version : List Char) : Except PyErr Compiler :=
  match parseVer false version with
  | none => get_compiler_exact cs name (.inr version)
  | some v =>
    match scanRange name v (bump_patch v) cs none with
    | .error e => .error e
    | .ok none => .error .notFound
    | .ok (some best) => get_compiler_exact cs name best

/-! ## Derived views and concrete inputs used by the theorems -/

/-- All chunk text with the formatter-inserted fence markers removed,
concatenated in order. -/
def chunksPayload (w : MessageWriter) : List Char := (w.chunks.map payload).flatten

/-- Concatenation of the added lines, each with its terminator. -/
def linesOf (ops : List Op) : List Char := (ops.filterMap opLine).flatten

/-- Scenario-D style catalog input: three c++/amd64 gcc descriptors at
10.3.0, 11.2.0 and prerelease 12.0.0-trunk. -/
def demoRaws : List RawCompiler :=
  [⟨"g103".data, "x86-64 gcc 10.3".data, "c++".data, "amd64".data, "10.3.0".data⟩,
   ⟨"g112".data, "x86-64 gcc 11.2".data, "c++".data, "amd64".data, "11.2.0".data⟩,
   ⟨"g120".data, "x86-64 gcc 12 trunk".data, "c++".data, "amd64".data, "12.0.0-trunk".data⟩]

/-- A one-descriptor registry (gcc 10.3.0), all versions structured. -/
def demoRegistry : List Compiler :=
  [Compiler.make "g103".data "10.3.0".data "x86-64 gcc 10.3".data none]

/-! # Verification

## ReplyFormatter: chunk structure lemmas -/

theorem payload_append (a b : List Seg) : payload (a ++ b) = payload a ++ payload b := by
  simp [payload, List.filterMap_append]

theorem payload_fence_snoc (a : List Seg) : payload (a ++ [Seg.fence]) = payload a := by
  simp [payload_append, payload]

theorem payload_text_snoc (a : List Seg) (t : List Char) :
    payload (a ++ [Seg.text t]) = payload a ++ t := by
  simp [payload_append, payload]

theorem renderChunk_append (a b : List Seg) :
    renderChunk (a ++ b) = renderChunk a ++ renderChunk b := by
  simp [renderChunk]

theorem renderChunk_cons (s : Seg) (rest : List Seg) :
    renderChunk (s :: rest) = renderSeg s ++ renderChunk rest := by
  simp [renderChunk]

theorem payload_cons_fence (rest : List Seg) :
    payload (Seg.fence :: rest) = payload rest := by
  simp [payload, List.filterMap_cons]

theorem payload_cons_text (t : List Char) (rest : List Seg) :
    payload (Seg.text t :: rest) = t ++ payload rest := by
  simp [payload, List.filterMap_cons]

theorem fenceCount_cons_fence (rest : List Seg) :
    fenceCount (Seg.fence :: rest) = fenceCount rest + 1 := by
  simp [fenceCount]

theorem fenceCount_cons_text (t : List Char) (rest : List Seg) :
    fenceCount (Seg.text t :: rest) = fenceCount rest := by
  rw [fenceCount, fenceCount, List.count_cons_of_ne]
  intro h
  exact Seg.noConfusion h

theorem chunkLen_eq (c : List Seg) :
    chunkLen c = (payload c).length + 4 * fenceCount c := by
  induction c with
  | nil => rfl
  | cons s rest ih =>
    cases s with
    | fence =>
      rw [chunkLen, renderChunk_cons, List.length_append, payload_cons_fence,
        fenceCount_cons_fence]
      rw [chunkLen] at ih
      have h4 : (renderSeg Seg.fence).length = 4 := rfl
      omega
    | text t =>
      rw [chunkLen, renderChunk_cons, List.length_append, payload_cons_text,
        List.length_append, fenceCount_cons_text]
      rw [chunkLen] at ih
      have ht : (renderSeg (Seg.text t)).length = t.length := rfl
      omega

theorem payload_length_le (c : List Seg) : (payload c).length ≤ chunkLen c := by
  rw [chunkLen_eq]; omega

/-! ## ReplyFormatter: state lemmas -/

theorem max_size_add_block (w : MessageWriter) (p : List Char) :
    (w._add_block p).max_size = w.max_size := by
  unfold MessageWriter._add_block; split <;> rfl

theorem max_size_foldl_blocks (ps : List (List Char)) (w : MessageWriter) :
    (ps.foldl MessageWriter._add_block w).max_size = w.max_size := by
  induction ps generalizing w with
  | nil => rfl
  | cons p ps ih => rw [List.foldl_cons, ih, max_size_add_block]

theorem max_size_step (w : MessageWriter) (op : Op) :
    (stepOp w op).max_size = w.max_size := by
  cases op <;>
    simp [stepOp, MessageWriter.add_line, MessageWriter.set_code_mode,
      MessageWriter.set_plain_mode, max_size_foldl_blocks]

theorem max_size_run (w : MessageWriter) (ops : List Op) :
    (runOps w ops).max_size = w.max_size := by
  induction ops generalizing w with
  | nil => rfl
  | cons op ops ih => rw [runOps, List.foldl_cons, ← runOps, ih, max_size_step]

/-! ## ReplyFormatter: the payload-bound invariant -/

theorem inv_add_block (w : MessageWriter) (p : List Char)
    (hp : p.length ≤ w.max_size)
    (h : ∀ c ∈ w.chunks, (payload c).length ≤ w.max_size) :
    ∀ c ∈ (w._add_block p).chunks, (payload c).length ≤ w.max_size := by
  have hcur := h w.cur (by simp [MessageWriter.chunks])
  have hdone : ∀ c ∈ w.done, (payload c).length ≤ w.max_size := by
    intro c hc; exact h c (by simp [MessageWriter.chunks, hc])
  unfold MessageWriter._add_block
  split
  · intro c hc
    simp only [MessageWriter.chunks, List.append_assoc, List.mem_append,
      List.mem_singleton] at hc
    rcases hc with hc | hc | hc
    · exact hdone c hc
    · subst hc
      cases hw : w.code_mode <;> simp [hw, payload_fence_snoc, hcur]
    · subst hc
      cases hw : w.code_mode <;>
        simp [hw, payload, List.filterMap_cons, hp]
  · rename_i hfit
    intro c hc
    simp only [MessageWriter.chunks, List.mem_append, List.mem_singleton] at hc
    rcases hc with hc | hc
    · exact hdone c hc
    · subst hc
      rw [payload_text_snoc, List.length_append]
      have := payload_length_le w.cur
      omega

theorem inv_foldl_blocks (ps : List (List Char)) (w : MessageWriter)
    (hps : ∀ p ∈ ps, p.length ≤ w.max_size)
    (h : ∀ c ∈ w.chunks, (payload c).length ≤ w.max_size) :
    ∀ c ∈ (ps.foldl MessageWriter._add_block w).chunks,
      (payload c).length ≤ w.max_size := by
  induction ps generalizing w with
  | nil => exact h
  | cons p ps ih =>
    rw [List.foldl_cons]
    have h1 := inv_add_block w p (hps p (by simp)) h
    have := ih (w._add_block p)
    rw [max_size_add_block] at this
    exact this (fun q hq => hps q (by simp [hq])) h1

theorem splitGo_length_le (L : Nat) (hL : 1 ≤ L) :
    ∀ fuel s, s.length ≤ fuel → ∀ p ∈ splitGo L fuel s, p.length ≤ L := by
  intro fuel
  induction fuel with
  | zero =>
    intro s hs p hp
    simp only [splitGo, List.mem_singleton] at hp
    subst hp; omega
  | succ n ih =>
    intro s hs p hp
    rw [splitGo] at hp
    split at hp
    · rename_i hlong
      simp only [List.mem_cons] at hp
      rcases hp with hp | hp
      · subst hp; rw [List.length_take]; omega
      · exact ih (s.drop L) (by simp [List.length_drop]; omega) p hp
    · rename_i hshort
      simp only [List.mem_singleton] at hp
      subst hp; omega

theorem inv_add_line (w : MessageWriter) (s : List Char)
    (hL : 1 ≤ w.max_size)
    (h : ∀ c ∈ w.chunks, (payload c).length ≤ w.max_size) :
    ∀ c ∈ (w.add_line s).chunks, (payload c).length ≤ w.max_size := by
  unfold MessageWriter.add_line
  exact inv_foldl_blocks _ w
    (splitGo_length_le w.max_size hL _ _ (le_refl _)) h

theorem inv_step (w : MessageWriter) (op : Op)
    (hL : 1 ≤ w.max_size)
    (h : ∀ c ∈ w.chunks, (payload c).length ≤ w.max_size) :
    ∀ c ∈ (stepOp w op).chunks, (payload c).length ≤ w.max_size := by
  cases op with
  | addLine s => exact inv_add_line w s hL h
  | enterCode =>
    intro c hc
    simp only [stepOp, MessageWriter.set_code_mode, MessageWriter.chunks,
      List.mem_append, List.mem_singleton] at hc
    rcases hc with hc | hc
    · exact h c (by simp [MessageWriter.chunks, hc])
    · subst hc
      rw [payload_fence_snoc]
      exact h w.cur (by simp [MessageWriter.chunks])
  | exitCode =>
    intro c hc
    simp only [stepOp, MessageWriter.set_plain_mode, MessageWriter.chunks,
      List.mem_append, List.mem_singleton] at hc
    rcases hc with hc | hc
    · exact h c (by simp [MessageWriter.chunks, hc])
    · subst hc
      rw [payload_fence_snoc]
      exact h w.cur (by simp [MessageWriter.chunks])

theorem inv_run (w : MessageWriter) (ops : List Op)
    (hL : 1 ≤ w.max_size)
    (h : ∀ c ∈ w.chunks, (payload c).length ≤ w.max_size) :
    ∀ c ∈ (runOps w ops).chunks, (payload c).length ≤ w.max_size := by
  induction ops generalizing w with
  | nil => exact h
  | cons op ops ih =>
    rw [runOps, List.foldl_cons, ← runOps]
    have h1 := inv_step w op hL h
    have hm := max_size_step w op
    have := ih (stepOp w op) (by rw [hm]; exact hL)
    rw [hm] at this
    exact this h1

/-! ## ReplyFormatter: payload concatenation -/

theorem chunksPayload_eq (w : MessageWriter) :
    chunksPayload w = (w.done.map payload).flatten ++ payload w.cur := by
  simp [chunksPayload, MessageWriter.chunks]

theorem chunksPayload_add_block (w : MessageWriter) (p : List Char) :
    chunksPayload (w._add_block p) = chunksPayload w ++ p := by
  unfold MessageWriter._add_block
  split
  · cases hw : w.code_mode <;>
      simp [hw, chunksPayload_eq, payload_fence_snoc, payload,
        List.filterMap_cons, List.append_assoc]
  · simp [chunksPayload_eq, payload_text_snoc, List.append_assoc]

theorem chunksPayload_foldl_blocks (ps : List (List Char)) (w : MessageWriter) :
    chunksPayload (ps.foldl MessageWriter._add_block w) =
      chunksPayload w ++ ps.flatten := by
  induction ps generalizing w with
  | nil => simp
  | cons p ps ih =>
    rw [List.foldl_cons, ih, chunksPayload_add_block]
    simp [List.append_assoc]

theorem splitGo_flatten (L : Nat) : ∀ fuel s, (splitGo L fuel s).flatten = s := by
  intro fuel
  induction fuel with
  | zero => intro s; simp [splitGo]
  | succ n ih =>
    intro s
    rw [splitGo]
    split
    · simp [ih]
    · simp

theorem chunksPayload_add_line (w : MessageWriter) (s : List Char) :
    chunksPayload (w.add_line s) = chunksPayload w ++ s ++ ['\n'] := by
  unfold MessageWriter.add_line
  rw [chunksPayload_foldl_blocks, splitLine, splitGo_flatten, List.append_assoc]

theorem chunksPayload_step (w : MessageWriter) (op : Op) :
    chunksPayload (stepOp w op) = chunksPayload w ++ (opLine op).getD [] := by
  cases op with
  | addLine s =>
    rw [stepOp, chunksPayload_add_line]
    simp [opLine, List.append_assoc]
  | enterCode =>
    simp [stepOp, MessageWriter.set_code_mode, chunksPayload_eq, payload_fence_snoc, opLine]
  | exitCode =>
    simp [stepOp, MessageWriter.set_plain_mode, chunksPayload_eq, payload_fence_snoc, opLine]

theorem chunksPayload_run (w : MessageWriter) (ops : List Op) :
    chunksPayload (runOps w ops) = chunksPayload w ++ linesOf ops := by
  induction ops generalizing w with
  | nil => simp [runOps, linesOf]
  | cons op ops ih =>
    rw [runOps, List.foldl_cons, ← runOps, ih, chunksPayload_step]
    cases op <;> simp [opLine, linesOf, List.append_assoc]

/-! ## Claims C1, C2, C3 -/

/-- C1 counterexample: the claim says every produced chunk has length at
most the configured limit (slice chunks included).  With limit 10, adding
the line "12345678" and then exiting code mode produces the single chunk
"12345678\n```\n" of length 13 > 10: `set_plain_mode` appends its fence
marker with no size check, so even a chunk containing no over-long line
exceeds the limit. -/
theorem chunk_bound_counterexample :
    (runOps (MessageWriter.init 10) [Op.addLine "12345678".data, Op.exitCode]).messages =
      ["12345678\n```\n".data] ∧
    ¬ (∀ c ∈ (runOps (MessageWriter.init 10)
          [Op.addLine "12345678".data, Op.exitCode]).chunks, chunkLen c ≤ 10) := by
  constructor
  · decide
  · intro h
    have := h [Seg.text "12345678\n".data, Seg.fence] (by decide)
    revert this
    decide

/-- C1 (amended): for every operation sequence on a writer with limit
L ≥ 1, every produced chunk's length *excluding fence markers* is at most
L; consequently a chunk can exceed L only by the four characters of each
fence marker it contains. -/
theorem chunk_bound_amended (L : Nat) (ops : List Op) (hL : 1 ≤ L) :
    ∀ c ∈ (runOps (MessageWriter.init L) ops).chunks,
      (payload c).length ≤ L ∧ chunkLen c ≤ L + 4 * fenceCount c := by
  intro c hc
  have h0 : ∀ c ∈ (MessageWriter.init L).chunks, (payload c).length ≤ L := by
    intro c hc
    simp only [MessageWriter.init, MessageWriter.chunks, List.nil_append,
      List.mem_singleton] at hc
    subst hc; simp [payload]
  have hinv := inv_run (MessageWriter.init L) ops hL h0 c hc
  have hms : (MessageWriter.init L).max_size = L := rfl
  rw [hms] at hinv
  refine ⟨hinv, ?_⟩
  rw [chunkLen_eq]
  omega

/-- C1 witness: the amended bound evaluated on the counterexample chunk
"12345678\n```\n" (payload length 9 ≤ 10; total length 13 ≤ 10 + 4·1). -/
theorem chunk_bound_amended_witness :
    (payload [Seg.text "12345678\n".data, Seg.fence]).length ≤ 10 ∧
    chunkLen [Seg.text "12345678\n".data, Seg.fence] ≤
      10 + 4 * fenceCount [Seg.text "12345678\n".data, Seg.fence] :=
  chunk_bound_amended 10 [Op.addLine "12345678".data, Op.exitCode] (by decide)
    [Seg.text "12345678\n".data, Seg.fence] (by decide)

/-- C2: whenever `_add_block` produces a chunk boundary (the finished-chunk
list grows) while the in-code-block flag is true, the finished chunk ends
with a closing fence marker and the following chunk begins with an opening
fence marker.  Boundaries are produced only by `_add_block`. -/
theorem code_boundary_fences (w : MessageWriter) (p : List Char)
    (hm : w.code_mode = true)
    (hb : (w._add_block p).done.length = w.done.length + 1) :
    (w._add_block p).done.getLast? = some (w.cur ++ [Seg.fence]) ∧
    (w._add_block p).cur.head? = some Seg.fence := by
  unfold MessageWriter._add_block at hb ⊢
  split at hb
  · rename_i hroll
    simp [hroll, hm]
  · simp at hb

/-- C2 witness: a writer in code mode with current chunk one fence marker
(limit 10) receiving a ten-character block: the finished chunk is closed
with a fence and the new chunk opens with one. -/
theorem code_boundary_fences_witness :
    ((MessageWriter.mk 10 [] [Seg.fence] true)._add_block "abcdefghij".data).done.getLast? =
      some [Seg.fence, Seg.fence] ∧
    ((MessageWriter.mk 10 [] [Seg.fence] true)._add_block "abcdefghij".data).cur.head? =
      some Seg.fence :=
  code_boundary_fences ⟨10, [], [Seg.fence], true⟩ "abcdefghij".data rfl (by decide)

/-- C3: for any operation sequence on a writer with limit L ≥ 1, removing
all fence markers from every produced chunk and concatenating the chunks in
order yields exactly the concatenation of the added lines, each followed by
its newline terminator. -/
theorem chunk_concat (L : Nat) (ops : List Op) (hL : 1 ≤ L) :
    chunksPayload (runOps (MessageWriter.init L) ops) = linesOf ops := by
  rw [chunksPayload_run]
  simp [chunksPayload_eq, MessageWriter.init, payload]

/-- C3 witness: a code-mode session with two lines and a rollover at
limit 10 reproduces both lines verbatim. -/
theorem chunk_concat_witness :
    chunksPayload (runOps (MessageWriter.init 10)
        [Op.enterCode, Op.addLine "abcdefghijk".data, Op.exitCode]) =
      linesOf [Op.enterCode, Op.addLine "abcdefghijk".data, Op.exitCode] :=
  chunk_concat 10 [Op.enterCode, Op.addLine "abcdefghijk".data, Op.exitCode] (by decide)

/-! ## AnsiInterpreter: `escape_ansi` on sequence-free input -/

theorem subAnsiGo_nil (fuel : Nat) : subAnsiGo fuel [] = [] := by cases fuel <;> rfl

theorem subAnsiGo_esc_br (n : Nat) (r : List Char) (hm : matchParams r = none) :
    subAnsiGo (n + 1) (esc :: '[' :: r) = esc :: subAnsiGo n ('[' :: r) := by
  simp [subAnsiGo, hm, esc]

theorem subAnsiGo_not_esc (n : Nat) (c : Char) (cs : List Char) (hc : ¬ c = esc) :
    subAnsiGo (n + 1) (c :: cs) = c :: subAnsiGo n cs := by
  simp [subAnsiGo, hc]

theorem subAnsiGo_esc_single (n : Nat) : subAnsiGo (n + 1) [esc] = [esc] := by
  simp [subAnsiGo, subAnsiGo_nil, esc]

theorem subAnsiGo_esc_not_br (n : Nat) (c2 : Char) (cs2 : List Char) (h2 : ¬ c2 = '[') :
    subAnsiGo (n + 1) (esc :: c2 :: cs2) = esc :: subAnsiGo n (c2 :: cs2) := by
  simp only [subAnsiGo, esc, if_true]
  split
  · rename_i r hr
    rw [List.cons.injEq] at hr
    exact absurd hr.1 h2
  · rfl

theorem subAnsiGo_id : ∀ fuel s, hasCSIm s = false → subAnsiGo fuel s = s := by
  intro fuel
  induction fuel with
  | zero => intro s _; rfl
  | succ n ih =>
    intro s h
    rcases s with _ | ⟨c, cs⟩
    · rfl
    · rcases cs with _ | ⟨c2, cs2⟩
      · by_cases hc : c = esc
        · subst hc; exact subAnsiGo_esc_single n
        · rw [subAnsiGo_not_esc n c [] hc, subAnsiGo_nil]
      · rw [hasCSIm, Bool.or_eq_false_iff] at h
        obtain ⟨h1, h2⟩ := h
        by_cases hc : c = esc
        · subst hc
          by_cases h2c : c2 = '['
          · subst h2c
            have hm : matchParams cs2 = none := by
              cases hmp : matchParams cs2 with
              | none => rfl
              | some pr => rw [hmp] at h1; simp [esc] at h1
            rw [subAnsiGo_esc_br n cs2 hm, ih _ h2]
          · rw [subAnsiGo_esc_not_br n c2 cs2 h2c, ih _ h2]
        · rw [subAnsiGo_not_esc n c _ hc, ih _ h2]

theorem replaceK_id : ∀ s, hasEraseK s = false → replaceK s = s := by
  intro s
  induction s using replaceK.induct with
  | case1 a b k rest hcond ih =>
    intro h
    rw [hasEraseK, Bool.or_eq_false_iff] at h
    exact absurd hcond (of_decide_eq_false h.1)
  | case2 a b k rest hcond ih =>
    intro h
    rw [hasEraseK, Bool.or_eq_false_iff] at h
    rw [replaceK, if_neg hcond, ih h.2]
  | case3 s hshape =>
    intro _
    match s, hshape with
    | [], _ => rfl
    | [a], _ => rfl
    | [a, b], _ => rfl
    | a :: b :: k :: rest, hsh => exact absurd rfl (hsh a b k rest)

/-- C7 counterexample: stripping is not idempotent.  On the six-character
input ESC ESC [ m [ m the first pass removes the inner sequence and splices
the remaining characters into the new sequence ESC [ m, which a second pass
removes. -/
theorem strip_idem_counterexample :
    escape_ansi (escape_ansi [esc, esc, '[', 'm', '[', 'm']) ≠
      escape_ansi [esc, esc, '[', 'm', '[', 'm'] := by
  decide

/-- C7 (amended): `strip(x) == x` for every input containing no recognized
escape sequence (no `ESC [ params m` occurrence and no `ESC [ K`
occurrence); on such inputs stripping is in particular idempotent.
Unrestricted idempotence fails (see the counterexample): removing a
sequence can splice together a new one. -/
theorem strip_id_amended (s : List Char)
    (h1 : hasCSIm s = false) (h2 : hasEraseK s = false) :
    escape_ansi s = s ∧ escape_ansi (escape_ansi s) = escape_ansi s := by
  have hid : escape_ansi s = s := by
    rw [escape_ansi, subAnsi, subAnsiGo_id _ s h1, replaceK_id s h2]
  exact ⟨hid, by rw [hid, hid]⟩

/-- C7 witness: the sequence-free input "Hello, world!" is a fixed point of
stripping. -/
theorem strip_id_witness :
    escape_ansi "Hello, world!".data = "Hello, world!".data ∧
    escape_ansi (escape_ansi "Hello, world!".data) = escape_ansi "Hello, world!".data :=
  strip_id_amended "Hello, world!".data (by decide) (by decide)

/-! ## AnsiInterpreter: totality of `convert_ansi` -/

theorem matchParams_param_chars :
    ∀ r p rest, matchParams r = some (p, rest) → ∀ c ∈ p, isParamChar c = true := by
  intro r
  induction r with
  | nil => intro p rest h; exact Option.noConfusion h
  | cons c cs ih =>
    intro p rest h
    rw [matchParams] at h
    split at h
    · simp only [Option.some_inj, Prod.mk.injEq] at h
      rw [← h.1]
      intro c hc
      exact absurd hc (List.not_mem_nil c)
    · split at h
      · rename_i hpc
        rcases hmp : matchParams cs with _ | ⟨q, rest'⟩ <;> rw [hmp] at h
        · exact Option.noConfusion h
        · simp only [Option.map_some', Option.some_inj, Prod.mk.injEq] at h
          rw [← h.1]
          intro d hd
          rcases List.mem_cons.mp hd with hd | hd
          · rw [hd]; exact hpc
          · exact ih q rest' hmp d hd
      · exact Option.noConfusion h

theorem splitSemis_digits :
    ∀ s, (∀ c ∈ s, isParamChar c = true) →
      ∀ p ∈ splitSemis s, p.all Char.isDigit = true := by
  intro s
  induction s with
  | nil =>
    intro _ p hp
    rw [splitSemis, List.mem_singleton] at hp
    rw [hp]; rfl
  | cons c cs ih =>
    intro h p hp
    have hcs : ∀ d ∈ cs, isParamChar d = true := fun d hd => h d (by simp [hd])
    rw [splitSemis] at hp
    split at hp
    · rcases List.mem_cons.mp hp with hp | hp
      · rw [hp]; rfl
      · exact ih hcs p hp
    · rename_i hsemi
      have hcd : c.isDigit = true := by
        have := h c (by simp)
        rw [isParamChar, Bool.or_eq_true] at this
        rcases this with hd | hd
        · exact hd
        · exact absurd (by simpa using hd) hsemi
      split at hp
      · rename_i q qs hq
        rcases List.mem_cons.mp hp with hp | hp
        · rw [hp, List.all_cons, hcd, Bool.true_and]
          exact ih hcs q (by rw [hq]; simp)
        · exact ih hcs p (by rw [hq]; simp [hp])
      · rw [List.mem_singleton] at hp
        rw [hp, List.all_cons, hcd]; rfl

theorem procesParam_digits (p : List Char) (h : p.all Char.isDigit = true) :
    (procesParam p).isSome = true := by
  rw [procesParam]
  split
  · rfl
  · simp [h]

theorem mapM_procesParam (ps : List (List Char))
    (h : ∀ p ∈ ps, p.all Char.isDigit = true) :
    ∃ v, ps.mapM procesParam = some v := by
  induction ps with
  | nil => exact ⟨[], rfl⟩
  | cons p ps ih =>
    obtain ⟨v, hv⟩ := ih (fun q hq => h q (by simp [hq]))
    obtain ⟨n, hn⟩ := Option.isSome_iff_exists.mp (procesParam_digits p (h p (by simp)))
    exact ⟨n :: v, by rw [List.mapM_cons, hn, hv]; rfl⟩

theorem renderFrags_total :
    ∀ frags : List (List (List Char) × List Char),
      (∀ f ∈ frags, ∀ p ∈ f.1, p.all Char.isDigit = true) →
      ∀ attrs, ∃ out, renderFrags attrs frags = some out := by
  intro frags
  induction frags with
  | nil => intro _ attrs; exact ⟨[], rfl⟩
  | cons f rest ih =>
    intro h attrs
    obtain ⟨rawps, txt⟩ := f
    obtain ⟨ps, hps⟩ := mapM_procesParam rawps (h (rawps, txt) (by simp))
    obtain ⟨tail, htail⟩ := ih (fun g hg => h g (by simp [hg])) (nextAttrs attrs ps)
    rw [renderFrags, hps, Option.some_bind, htail, Option.some_bind]
    split
    · exact ⟨tail, rfl⟩
    · split
      · exact ⟨txt ++ tail, rfl⟩
      · exact ⟨_, rfl⟩

theorem fragsGo_nil_frag (n : Nat) (ps : List (List Char)) (acc : List Char) :
    fragsGo (n + 1) ps acc [] = [(ps, acc.reverse)] := rfl

theorem fragsGo_esc_br (n : Nat) (ps : List (List Char)) (acc r : List Char)
    (pr : List Char × List Char) (hm : matchParams r = some pr) :
    fragsGo (n + 1) ps acc (esc :: '[' :: r) =
      (ps, acc.reverse) :: fragsGo n (splitSemis pr.1) [] pr.2 := by
  simp [fragsGo, hm, esc]

theorem fragsGo_esc_br_none (n : Nat) (ps : List (List Char)) (acc r : List Char)
    (hm : matchParams r = none) :
    fragsGo (n + 1) ps acc (esc :: '[' :: r) = fragsGo n ps (esc :: acc) ('[' :: r) := by
  simp [fragsGo, hm, esc]

theorem fragsGo_esc_single (n : Nat) (ps : List (List Char)) (acc : List Char) :
    fragsGo (n + 1) ps acc [esc] = fragsGo n ps (esc :: acc) [] := by
  simp [fragsGo, esc]

theorem fragsGo_esc_not_br (n : Nat) (ps : List (List Char)) (acc : List Char)
    (c2 : Char) (cs2 : List Char) (h2 : ¬ c2 = '[') :
    fragsGo (n + 1) ps acc (esc :: c2 :: cs2) = fragsGo n ps (esc :: acc) (c2 :: cs2) := by
  simp only [fragsGo, esc, if_true]
  split
  · rename_i r hr
    rw [List.cons.injEq] at hr
    exact absurd hr.1 h2
  · rfl

theorem fragsGo_not_esc (n : Nat) (ps : List (List Char)) (acc : List Char)
    (c : Char) (cs : List Char) (hc : ¬ c = esc) :
    fragsGo (n + 1) ps acc (c :: cs) = fragsGo n ps (c :: acc) cs := by
  simp [fragsGo, hc]

theorem fragsGo_digits :
    ∀ fuel (ps : List (List Char)) acc s,
      (∀ p ∈ ps, p.all Char.isDigit = true) →
      ∀ f ∈ fragsGo fuel ps acc s, ∀ p ∈ f.1, p.all Char.isDigit = true := by
  intro fuel
  induction fuel with
  | zero =>
    intro ps acc s h f hf
    rw [fragsGo, List.mem_singleton] at hf
    rw [hf]
    exact h
  | succ n ih =>
    intro ps acc s h f hf
    rcases s with _ | ⟨c, cs⟩
    · rw [fragsGo_nil_frag, List.mem_singleton] at hf
      rw [hf]
      exact h
    · by_cases hc : c = esc
      · subst hc
        rcases cs with _ | ⟨c2, cs2⟩
        · rw [fragsGo_esc_single] at hf
          exact ih ps _ [] h f hf
        · by_cases h2c : c2 = '['
          · subst h2c
            rcases hmp : matchParams cs2 with _ | pr
            · rw [fragsGo_esc_br_none n ps acc cs2 hmp] at hf
              exact ih ps _ _ h f hf
            · rw [fragsGo_esc_br n ps acc cs2 pr hmp] at hf
              rcases List.mem_cons.mp hf with hf | hf
              · rw [hf]; exact h
              · refine ih (splitSemis pr.1) [] pr.2 ?_ f hf
                intro q hq
                exact splitSemis_digits pr.1
                  (matchParams_param_chars cs2 pr.1 pr.2 (by rw [hmp])) q hq
          · rw [fragsGo_esc_not_br n ps acc c2 cs2 h2c] at hf
            exact ih ps _ _ h f hf
      · rw [fragsGo_not_esc n ps acc c cs hc] at hf
        exact ih ps _ _ h f hf

/-- C9: `toStyledMarkup` is total — for every input string `convert_ansi`
produces a result: every parameter substring extracted from a matched
sequence consists of digits only (or is empty), so the integer conversion
in `proces_param` never fails, and the style-table lookups are guarded.
`strip` (`escape_ansi`) is total by construction (it is a plain function in
this embedding, with no failure point to model). -/
theorem convert_ansi_total (s : List Char) : ∃ out, convert_ansi s = some out := by
  rw [convert_ansi, fragments]
  exact renderFrags_total _
    (fragsGo_digits _ [] [] _ (by intro p hp; exact absurd hp (List.not_mem_nil p))) []

/-! ## AnsiInterpreter: reset semantics of `convert_ansi` -/

/-- C6 counterexample: the claim says the parameters after a reset code in
the same sequence are processed into the emptied state, which would make
`ESC [0;1m B` render like `ESC [1m B` (a bold span).  The code instead
discards them: the first input renders as plain "B", the second as a bold
span. -/
theorem reset_processing_counterexample :
    convert_ansi [esc, '[', '0', ';', '1', 'm', 'B'] = some ['B'] ∧
    convert_ansi [esc, '[', '0', ';', '1', 'm', 'B'] ≠
      convert_ansi [esc, '[', '1', 'm', 'B'] := by
  constructor
  · decide
  · decide

/-- C6 (amended): a parameter list that is empty or contains 0 resets the
active style state to empty and *discards* the remaining parameters of that
sequence; consequently the fragment following such a sequence is rendered
with no style markers, and rendering continues from the empty state. -/
theorem reset_discards_rest (attrs rawps : List (List Char)) (txt : List Char)
    (rest : List (List (List Char) × List Char)) (ps : List Nat)
    (hps : rawps.mapM procesParam = some ps)
    (hreset : ps.contains 0 = true ∨ ps = []) :
    renderFrags attrs ((rawps, txt) :: rest) =
      (renderFrags [] rest).map (fun out => txt ++ out) := by
  have hcond : (ps.contains 0 || ps.isEmpty) = true := by
    rcases hreset with h | h
    · rw [h]; rfl
    · rw [h]; simp
  have hna : nextAttrs attrs ps = [] := by rw [nextAttrs, if_pos hcond]
  rw [renderFrags, hps, Option.some_bind, hna]
  rcases htail : renderFrags [] rest with _ | tail
  · rfl
  · rw [Option.some_bind]
    cases txt with
    | nil => rfl
    | cons a as => rfl

/-- C6 witness: with bold active, the sequence `0;31` clears the state and
drops the 31; the fragment "X" is emitted unstyled. -/
theorem reset_discards_rest_witness :
    renderFrags ["font-weight: bold".data] [([['0'], ['3', '1']], ['X'])] =
      (renderFrags [] []).map (fun out => ['X'] ++ out) :=
  reset_discards_rest ["font-weight: bold".data] [['0'], ['3', '1']] ['X'] []
    [0, 31] (by decide) (Or.inl (by decide))

/-! ## Command sanitization: `clean_command` -/

theorem underscoreBad_mem (s : List Char) : ∀ c ∈ underscoreBad s, okCmdChar c = true := by
  intro c hc
  rw [underscoreBad, List.mem_map] at hc
  obtain ⟨a, _, ha⟩ := hc
  rw [← ha]
  by_cases h : okCmdChar a
  · rw [if_pos h]; exact h
  · rw [if_neg h]; rfl

theorem underscoreBad_id (s : List Char) (h : ∀ c ∈ s, okCmdChar c = true) :
    underscoreBad s = s := by
  induction s with
  | nil => rfl
  | cons c cs ih =>
    rw [underscoreBad] at ih ⊢
    rw [List.map_cons, ih (fun d hd => h d (List.mem_cons_of_mem c hd)),
      if_pos (h c (List.mem_cons_self c cs))]

theorem collapseU_mem : ∀ s, ∀ c ∈ collapseU s, c ∈ s := by
  intro s
  induction s using collapseU.induct with
  | case1 => intro c hc; exact hc
  | case2 a => intro c hc; exact hc
  | case3 c d rest hcond ih =>
    intro e he
    rw [collapseU, if_pos hcond] at he
    exact List.mem_cons_of_mem c (ih e he)
  | case4 c d rest hcond ih =>
    intro e he
    rw [collapseU, if_neg hcond] at he
    rcases List.mem_cons.mp he with he | he
    · rw [he]; exact List.mem_cons_self c _
    · exact List.mem_cons_of_mem c (ih e he)

theorem collapseU_head : ∀ s x xs, s = x :: xs → (collapseU s).head? = some x := by
  intro s
  induction s using collapseU.induct with
  | case1 => intro x xs h; exact absurd h (by simp)
  | case2 a =>
    intro x xs h
    rw [List.cons.injEq] at h
    rw [collapseU, h.1]
    rfl
  | case3 c d rest hcond ih =>
    intro x xs h
    rw [List.cons.injEq] at h
    rw [collapseU, if_pos hcond, ih d rest rfl]
    rw [← h.1, hcond.1, hcond.2]
  | case4 c d rest hcond ih =>
    intro x xs h
    rw [List.cons.injEq] at h
    rw [collapseU, if_neg hcond]
    rw [← h.1]
    rfl

theorem collapseU_no_double : ∀ s, hasDoubleU (collapseU s) = false := by
  intro s
  induction s using collapseU.induct with
  | case1 => rfl
  | case2 a => rfl
  | case3 c d rest hcond ih => rw [collapseU, if_pos hcond]; exact ih
  | case4 c d rest hcond ih =>
    rw [collapseU, if_neg hcond]
    rcases he : collapseU (d :: rest) with _ | ⟨e, es⟩
    · rfl
    · have hd : e = d := by
        have := collapseU_head (d :: rest) d rest rfl
        rw [he] at this
        exact Option.some_inj.mp this
      subst hd
      rw [hasDoubleU, Bool.or_eq_false_iff]
      constructor
      · by_cases hcu : c = '_'
        · by_cases hdu : e = '_'
          · exact absurd ⟨hcu, hdu⟩ hcond
          · simp [hdu]
        · simp [hcu]
      · rw [← he]; exact ih

theorem collapseU_id : ∀ s, hasDoubleU s = false → collapseU s = s := by
  intro s
  induction s using collapseU.induct with
  | case1 => intro _; rfl
  | case2 a => intro _; rfl
  | case3 c d rest hcond ih =>
    intro h
    rw [hasDoubleU, Bool.or_eq_false_iff] at h
    obtain ⟨h1, _⟩ := h
    rw [hcond.2] at h1
    simp at h1
    exact absurd hcond.1 h1
  | case4 c d rest hcond ih =>
    intro h
    rw [hasDoubleU, Bool.or_eq_false_iff] at h
    rw [collapseU, if_neg hcond, ih h.2]

theorem clean_command_shape : ∀ raws : List RawCompiler, ∀ c ∈ load raws,
    ∃ s, c.command = clean_command s := by
  intro raws c hc
  rw [load] at hc
  have hmk : ∀ id v t cmd, ∃ s, (Compiler.make id v t cmd).command = clean_command s :=
    fun id v t cmd => ⟨cmd.getD id, rfl⟩
  rw [_add_complier_aliases, List.mem_append] at hc
  have hbase : ∀ c', c' ∈ _add_latest_compiler "clang".data
      (_add_latest_compiler "gcc".data (raws.filterMap fun r =>
        if r.lang = "c++".data ∧ r.instructionSet = "amd64".data then
          some (Compiler.make r.id r.semver r.title none)
        else none)) → ∃ s, c'.command = clean_command s := by
    intro c' hc'
    rw [_add_latest_compiler] at hc'
    have hbase2 : ∀ c'', c'' ∈ _add_latest_compiler "gcc".data
        (raws.filterMap fun r =>
          if r.lang = "c++".data ∧ r.instructionSet = "amd64".data then
            some (Compiler.make r.id r.semver r.title none)
          else none) → ∃ s, c''.command = clean_command s := by
      intro c'' hc''
      rw [_add_latest_compiler] at hc''
      have hprim : ∀ c₃, c₃ ∈ (raws.filterMap fun r =>
          if r.lang = "c++".data ∧ r.instructionSet = "amd64".data then
            some (Compiler.make r.id r.semver r.title none)
          else none) → ∃ s, c₃.command = clean_command s := by
        intro c₃ hc₃
        rw [List.mem_filterMap] at hc₃
        obtain ⟨r, _, hr⟩ := hc₃
        split at hr
        · rw [Option.some_inj] at hr
          rw [← hr]
          exact hmk _ _ _ _
        · exact Option.noConfusion hr
      split at hc''
      · rw [List.mem_append] at hc''
        rcases hc'' with hc'' | hc''
        · exact hprim _ hc''
        · rw [List.mem_singleton] at hc''
          rw [hc'']
          exact hmk _ _ _ _
      · exact hprim _ hc''
    split at hc'
    · rw [List.mem_append] at hc'
      rcases hc' with hc' | hc'
      · exact hbase2 _ hc'
      · rw [List.mem_singleton] at hc'
        rw [hc']
        exact hmk _ _ _ _
    · exact hbase2 _ hc'
  rcases hc with hc | hc
  · exact hbase _ hc
  · rw [List.mem_filterMap] at hc
    obtain ⟨c', _, hc'⟩ := hc
    rw [trimAlias] at hc'
    split at hc'
    · exact Option.noConfusion hc'
    · split at hc'
      · split at hc'
        · exact Option.noConfusion hc'
        · rw [Option.some_inj] at hc'
          rw [← hc']
          exact hmk _ _ _ _
      · exact Option.noConfusion hc'

/-- C10: command sanitization is idempotent, its output consists of ASCII
alphanumerics and underscores with no two consecutive underscores, and
every command stored in a loaded catalog (primary, latest alias or trimmed
alias) is a fixed point of sanitization. -/
theorem clean_command_idem :
    (∀ s : List Char, clean_command (clean_command s) = clean_command s ∧
      (∀ c ∈ clean_command s, okCmdChar c = true) ∧
      hasDoubleU (clean_command s) = false) ∧
    (∀ raws : List RawCompiler, ∀ c ∈ load raws,
      clean_command c.command = c.command) := by
  have hok : ∀ s : List Char, ∀ c ∈ clean_command s, okCmdChar c = true := by
    intro s c hc
    exact underscoreBad_mem s c (collapseU_mem (underscoreBad s) c hc)
  have hfix : ∀ s : List Char, clean_command (clean_command s) = clean_command s := by
    intro s
    have h1 : underscoreBad (clean_command s) = clean_command s :=
      underscoreBad_id _ (hok s)
    have h2 : collapseU (clean_command s) = clean_command s :=
      collapseU_id _ (collapseU_no_double (underscoreBad s))
    show collapseU (underscoreBad (clean_command s)) = clean_command s
    rw [h1, h2]
  refine ⟨fun s => ⟨hfix s, hok s, collapseU_no_double (underscoreBad s)⟩, ?_⟩
  intro raws c hc
  obtain ⟨s, hs⟩ := clean_command_shape raws c hc
  rw [hs, hfix s]

/-- C10 witness: sanitizing "a--b" twice is the same as once, and the
primary descriptor g103 of the demo catalog keeps its command under
re-sanitization. -/
theorem clean_command_idem_witness :
    clean_command (clean_command "a--b".data) = clean_command "a--b".data ∧
    clean_command (Compiler.make "g103".data "10.3.0".data
        "x86-64 gcc 10.3".data none).command =
      (Compiler.make "g103".data "10.3.0".data "x86-64 gcc 10.3".data none).command :=
  ⟨(clean_command_idem.1 "a--b".data).1,
   clean_command_idem.2 demoRaws _ (by decide)⟩

/-! ## Claim C8: `get_compiler` range lookup -/

/-- C8 (code bug): on a registry whose descriptors all carry structured
versions, a structured version query that matches a descriptor does not
return it: the scan picks the best version as a `Version` *object* and
passes it to `get_compiler_exact`, whose `Version.parse` call raises
`TypeError` (not caught by the `except ValueError`).  A query matching no
descriptor still reaches the intended not-found failure. -/
theorem range_lookup_type_error :
    get_compiler demoRegistry "gcc".data "10.3.0".data = .error .typeError ∧
    get_compiler demoRegistry "gcc".data "11.0.0".data = .error .notFound :=
  ⟨rfl, rfl⟩

/-! ## Claim C5: trimmed-version aliases -/

theorem trimParts_nil_iff (v : Version) : trimParts v = [] ↔ v.major = 0 := by
  rw [trimParts]
  by_cases h : v.major = 0
  · simp [h, List.takeWhile_cons]
  · simp [h, List.takeWhile_cons]

/-- C5: a trimmed-version alias is generated exactly for the descriptors
whose version is structured with no prerelease and no build label and a
non-zero major component; its command is the sanitized toolchain name plus
the version components from major downward up to the first zero.  On the
demo catalog, aliases `gcc_10_3` and `gcc_11_2` exist and no alias is
generated for the prerelease 12.0.0-trunk. -/
theorem trimmed_alias_exact :
    (∀ cs : List Compiler, ∀ c ∈ cs, ∀ v : Version,
        c.ver = .inl v → v.prerelease = none → v.build = none → v.major ≠ 0 →
        Compiler.make c.id (verStr v) c.title
            (some (nameStr c.name ++ '-' :: joinUnderscore (trimParts v))) ∈
          _add_complier_aliases cs) ∧
    (∀ cs : List Compiler, ∀ a ∈ (_add_complier_aliases cs).drop cs.length,
        ∃ c ∈ cs, ∃ v : Version, c.ver = .inl v ∧ v.prerelease = none ∧
          v.build = none ∧ v.major ≠ 0 ∧
          a = Compiler.make c.id (verStr v) c.title
            (some (nameStr c.name ++ '-' :: joinUnderscore (trimParts v)))) ∧
    ((load demoRaws).filter (fun c => c.command = "gcc_10_3".data)).length = 1 ∧
    ((load demoRaws).filter (fun c => c.command = "gcc_11_2".data)).length = 1 ∧
    ((load demoRaws).filter (fun c => c.command = "gcc_12".data)).length = 0 := by
  refine ⟨?_, ?_, by decide, by decide, by decide⟩
  · intro cs c hc v hv hpre hbuild hmaj
    rw [_add_complier_aliases, List.mem_append]
    right
    rw [List.mem_filterMap]
    refine ⟨c, hc, ?_⟩
    simp only [trimAlias, hv]
    rw [if_pos ⟨hpre, hbuild⟩, if_neg (fun h => hmaj ((trimParts_nil_iff v).mp h))]
  · intro cs a ha
    rw [_add_complier_aliases, List.drop_left, List.mem_filterMap] at ha
    obtain ⟨c, hc, hca⟩ := ha
    refine ⟨c, hc, ?_⟩
    rcases hver : c.ver with v | s
    · simp only [trimAlias, hver] at hca
      split at hca
      · rename_i hcond
        split at hca
        · exact Option.noConfusion hca
        · rename_i hne
          exact ⟨v, rfl, hcond.1, hcond.2,
            fun h => hne ((trimParts_nil_iff v).mpr h),
            (Option.some_inj.mp hca).symm⟩
      · exact Option.noConfusion hca
    · simp only [trimAlias, hver] at hca
      exact Option.noConfusion hca

/-- C5 witness: the descriptor gcc 10.3.0 of the demo registry contributes
its trimmed alias. -/
theorem trimmed_alias_witness :
    Compiler.make "g103".data (verStr ⟨10, 3, 0, none, none⟩) "x86-64 gcc 10.3".data
        (some (nameStr (some "gcc".data) ++ '-' ::
          joinUnderscore (trimParts ⟨10, 3, 0, none, none⟩))) ∈
      _add_complier_aliases demoRegistry :=
  trimmed_alias_exact.1 demoRegistry
    (Compiler.make "g103".data "10.3.0".data "x86-64 gcc 10.3".data none)
    (by decide) ⟨10, 3, 0, none, none⟩ (by decide) rfl rfl (by decide)

/-! ## Version ordering: `Ordering` helpers -/

theorem then_eq_gt (o p : Ordering) : o.then p = .gt ↔ o = .gt ∨ (o = .eq ∧ p = .gt) := by
  cases o <;> simp [Ordering.then]

theorem then_eq_eq (o p : Ordering) : o.then p = .eq ↔ o = .eq ∧ p = .eq := by
  cases o <;> simp [Ordering.then]

theorem swap_then (o p : Ordering) : (o.then p).swap = o.swap.then p.swap := by
  cases o <;> rfl

theorem natCompare_swap (a b : Nat) : compare a b = (compare b a).swap :=
  (Batteries.OrientedCmp.symm b a).symm

/-! ## Version ordering: string comparison -/

theorem char_toNat_inj (c d : Char) (h : c.toNat = d.toNat) : c = d :=
  Char.eq_of_val_eq (UInt32.ext h)

theorem strCmp_eq_iff : ∀ a b, strCmp a b = .eq ↔ a = b := by
  intro a
  induction a with
  | nil => intro b; cases b <;> simp [strCmp]
  | cons x as ih =>
    intro b
    cases b with
    | nil => simp [strCmp]
    | cons y bs =>
      rw [strCmp, then_eq_eq, Nat.compare_eq_eq, List.cons.injEq, ih bs]
      constructor
      · intro h; exact ⟨char_toNat_inj x y h.1, h.2⟩
      · intro h; exact ⟨by rw [h.1], h.2⟩

theorem strCmp_swap : ∀ a b, strCmp a b = (strCmp b a).swap := by
  intro a
  induction a with
  | nil => intro b; cases b <;> rfl
  | cons x as ih =>
    intro b
    cases b with
    | nil => rfl
    | cons y bs =>
      rw [strCmp, strCmp, swap_then, ← natCompare_swap, ← ih bs]

theorem strCmp_gt_trans : ∀ a b c, strCmp a b = .gt → strCmp b c = .gt → strCmp a c = .gt := by
  intro a
  induction a with
  | nil =>
    intro b c h1 _
    cases b with
    | nil => exact Ordering.noConfusion h1
    | cons y bs => exact Ordering.noConfusion h1
  | cons x as ih =>
    intro b c h1 h2
    cases c with
    | nil => rfl
    | cons z cs =>
      cases b with
      | nil => rw [strCmp] at h2; exact Ordering.noConfusion h2
      | cons y bs =>
        rw [strCmp, then_eq_gt] at h1 h2 ⊢
        rcases h1 with h1 | ⟨h1, h1r⟩
        · rcases h2 with h2 | ⟨h2, h2r⟩
          · exact Or.inl (Batteries.TransCmp.gt_trans h1 h2)
          · rw [Nat.compare_eq_eq] at h2
            rw [h2] at h1
            exact Or.inl h1
        · rcases h2 with h2 | ⟨h2, h2r⟩
          · rw [Nat.compare_eq_eq] at h1
            rw [← h1] at h2
            exact Or.inl h2
          · rw [Nat.compare_eq_eq] at h1 h2
            exact Or.inr ⟨by rw [Nat.compare_eq_eq, h1, h2], ih bs cs h1r h2r⟩

/-! ## Version ordering: prerelease identifier tags -/

theorem tagCmp_eq_iff : ∀ x y, tagCmp x y = .eq ↔ x = y := by
  intro x y
  cases x with
  | inl a =>
    cases y with
    | inl b =>
      rw [tagCmp, Nat.compare_eq_eq]
      constructor
      · intro h; rw [h]
      · intro h; exact Sum.inl.inj h
    | inr b => simp [tagCmp]
  | inr a =>
    cases y with
    | inl b => simp [tagCmp]
    | inr b =>
      rw [tagCmp, strCmp_eq_iff]
      constructor
      · intro h; rw [h]
      · intro h; exact Sum.inr.inj h

theorem tagCmp_swap (x y : Nat ⊕ List Char) : tagCmp x y = (tagCmp y x).swap := by
  cases x with
  | inl a =>
    cases y with
    | inl b => exact natCompare_swap a b
    | inr b => rfl
  | inr a =>
    cases y with
    | inl b => rfl
    | inr b => exact strCmp_swap a b

theorem tagCmp_gt_trans : ∀ x y z, tagCmp x y = .gt → tagCmp y z = .gt → tagCmp x z = .gt := by
  intro x y z h1 h2
  cases x with
  | inl a =>
    cases y with
    | inl b =>
      cases z with
      | inl c =>
        have h1n : compare a b = .gt := h1
        have h2n : compare b c = .gt := h2
        have h3 : compare a c = .gt := Batteries.TransCmp.gt_trans h1n h2n
        exact h3
      | inr c => exact Ordering.noConfusion h2
    | inr b => exact Ordering.noConfusion h1
  | inr a =>
    cases y with
    | inl b =>
      cases z with
      | inl c => rfl
      | inr c => exact Ordering.noConfusion h2
    | inr b =>
      cases z with
      | inl c => rfl
      | inr c => exact strCmp_gt_trans a b c h1 h2

/-! ## Version ordering: the zip comparison -/

theorem zipCmp_swap : ∀ xs ys, zipCmp xs ys = (zipCmp ys xs).swap := by
  intro xs
  induction xs with
  | nil => intro ys; cases ys <;> rfl
  | cons x xs ih =>
    intro ys
    cases ys with
    | nil => rfl
    | cons y ys => rw [zipCmp, zipCmp, swap_then, ← tagCmp_swap, ← ih ys]

theorem zipCmp_eq_iff : ∀ xs ys, zipCmp xs ys = .eq ↔ xs <+: ys ∨ ys <+: xs := by
  intro xs
  induction xs with
  | nil => intro ys; simp [zipCmp]
  | cons x xs ih =>
    intro ys
    cases ys with
    | nil => simp [zipCmp]
    | cons y ys =>
      rw [zipCmp, then_eq_eq, tagCmp_eq_iff, ih ys, List.cons_prefix_cons,
        List.cons_prefix_cons]
      constructor
      · rintro ⟨h, hrec | hrec⟩
        · exact Or.inl ⟨h, hrec⟩
        · exact Or.inr ⟨h.symm, hrec⟩
      · rintro (⟨h, hrec⟩ | ⟨h, hrec⟩)
        · exact ⟨h, Or.inl hrec⟩
        · exact ⟨h.symm, Or.inr hrec⟩

theorem zipCmp_gt_trans :
    ∀ xs ys zs, zipCmp xs ys = .gt → zipCmp ys zs = .gt → zipCmp xs zs = .gt := by
  intro xs
  induction xs with
  | nil => intro ys zs h1 _; rw [zipCmp] at h1; exact Ordering.noConfusion h1
  | cons x xs ih =>
    intro ys zs h1 h2
    cases ys with
    | nil => rw [zipCmp] at h1; exact Ordering.noConfusion h1
    | cons y ys =>
      cases zs with
      | nil => rw [zipCmp] at h2; exact Ordering.noConfusion h2
      | cons z zs =>
        rw [zipCmp, then_eq_gt] at h1 h2 ⊢
        rcases h1 with h1 | ⟨h1, h1r⟩
        · rcases h2 with h2 | ⟨h2, h2r⟩
          · exact Or.inl (tagCmp_gt_trans x y z h1 h2)
          · rw [tagCmp_eq_iff] at h2
            rw [← h2]
            exact Or.inl h1
        · rcases h2 with h2 | ⟨h2, h2r⟩
          · rw [tagCmp_eq_iff] at h1
            rw [h1]
            exact Or.inl h2
          · rw [tagCmp_eq_iff] at h1 h2
            exact Or.inr ⟨by rw [tagCmp_eq_iff, h1, h2], ih ys zs h1r h2r⟩

theorem zipCmp_gt_prefix_right :
    ∀ xs ys zs, zipCmp xs ys = .gt → zs <+: ys →
      zipCmp xs zs = .gt ∨ (zs <+: xs ∧ zs.length < xs.length) := by
  intro xs
  induction xs with
  | nil => intro ys zs h1 _; rw [zipCmp] at h1; exact Ordering.noConfusion h1
  | cons x xs ih =>
    intro ys zs h1 hp
    cases ys with
    | nil => rw [zipCmp] at h1; exact Ordering.noConfusion h1
    | cons y ys =>
      cases zs with
      | nil =>
        refine Or.inr ⟨List.nil_prefix, ?_⟩
        simp
      | cons z zs =>
        rw [List.cons_prefix_cons] at hp
        obtain ⟨hz, hp⟩ := hp
        rw [zipCmp, then_eq_gt] at h1
        rcases h1 with h1 | ⟨h1, h1r⟩
        · rw [← hz] at h1
          left
          rw [zipCmp, then_eq_gt]
          exact Or.inl h1
        · rw [tagCmp_eq_iff] at h1
          rcases ih ys zs h1r hp with hrec | ⟨hrec, hlen⟩
          · left
            rw [zipCmp, then_eq_gt]
            exact Or.inr ⟨by rw [tagCmp_eq_iff]; exact h1.trans hz.symm, hrec⟩
          · refine Or.inr ⟨?_, by simpa using hlen⟩
            rw [List.cons_prefix_cons]
            exact ⟨by rw [hz, h1], hrec⟩

theorem zipCmp_gt_prefix_left :
    ∀ xs ys zs, zipCmp ys zs = .gt → ys <+: xs → zipCmp xs zs = .gt := by
  intro xs
  induction xs with
  | nil =>
    intro ys zs h1 hp
    rw [List.prefix_nil] at hp
    rw [hp, zipCmp] at h1
    exact Ordering.noConfusion h1
  | cons x xs ih =>
    intro ys zs h1 hp
    cases ys with
    | nil => rw [zipCmp] at h1; exact Ordering.noConfusion h1
    | cons y ys =>
      cases zs with
      | nil => rw [zipCmp] at h1; exact Ordering.noConfusion h1
      | cons z zs =>
        rw [List.cons_prefix_cons] at hp
        obtain ⟨hy, hp⟩ := hp
        rw [zipCmp, then_eq_gt] at h1 ⊢
        rcases h1 with h1 | ⟨h1, h1r⟩
        · rw [hy] at h1
          exact Or.inl h1
        · rw [tagCmp_eq_iff] at h1
          exact Or.inr ⟨by rw [tagCmp_eq_iff]; exact hy.symm.trans h1, ih ys zs h1r hp⟩

/-! ## Version ordering: digit strings determine their values -/

theorem digit_toNat_bounds (c : Char) (h : c.isDigit = true) :
    48 ≤ c.toNat ∧ c.toNat ≤ 57 := by
  simp [Char.isDigit] at h
  exact h

theorem digVal_from : ∀ (s : List Char) (a : Nat),
    s.foldl (fun a c => 10 * a + (c.toNat - 48)) a = a * 10 ^ s.length + digVal s := by
  intro s
  induction s with
  | nil => intro a; simp [digVal]
  | cons c cs ih =>
    intro a
    have hdv : digVal (c :: cs) = (10 * 0 + (c.toNat - 48)) * 10 ^ cs.length + digVal cs := by
      rw [digVal, List.foldl_cons, ih]
    rw [List.foldl_cons, ih, hdv, List.length_cons]
    ring

theorem digVal_cons (c : Char) (cs : List Char) :
    digVal (c :: cs) = (c.toNat - 48) * 10 ^ cs.length + digVal cs := by
  rw [digVal, List.foldl_cons, digVal_from]
  norm_num

theorem digVal_lt (s : List Char) (h : s.all Char.isDigit = true) :
    digVal s < 10 ^ s.length := by
  induction s with
  | nil => simp [digVal]
  | cons c cs ih =>
    rw [List.all_cons, Bool.and_eq_true] at h
    have hd := digit_toNat_bounds c h.1
    have hv := ih h.2
    rw [digVal_cons, List.length_cons, pow_succ]
    calc (c.toNat - 48) * 10 ^ cs.length + digVal cs
        < (c.toNat - 48) * 10 ^ cs.length + 10 ^ cs.length := by omega
      _ = (c.toNat - 48 + 1) * 10 ^ cs.length := by ring
      _ ≤ 10 * 10 ^ cs.length := Nat.mul_le_mul_right _ (by omega)
      _ = 10 ^ cs.length * 10 := by ring

theorem digVal_ge (c : Char) (cs : List Char) (h : c.isDigit = true) (h0 : c ≠ '0') :
    10 ^ cs.length ≤ digVal (c :: cs) := by
  have hd := digit_toNat_bounds c h
  have h48 : ('0' : Char).toNat = 48 := rfl
  have h1 : 49 ≤ c.toNat := by
    rcases Nat.lt_or_ge c.toNat 49 with hlt | hge
    · exact absurd (char_toNat_inj c '0' (by omega)) h0
    · exact hge
  rw [digVal_cons]
  have h2 : 1 * 10 ^ cs.length ≤ (c.toNat - 48) * 10 ^ cs.length :=
    Nat.mul_le_mul_right _ (by omega)
  omega

theorem digVal_inj_len : ∀ s t : List Char, s.length = t.length →
    s.all Char.isDigit = true → t.all Char.isDigit = true →
    digVal s = digVal t → s = t := by
  intro s
  induction s with
  | nil =>
    intro t hlen _ _ _
    cases t with
    | nil => rfl
    | cons d ds => simp at hlen
  | cons c cs ih =>
    intro t hlen hs ht hv
    cases t with
    | nil => simp at hlen
    | cons d ds =>
      rw [List.all_cons, Bool.and_eq_true] at hs ht
      have hlen' : cs.length = ds.length := by simpa using hlen
      rw [digVal_cons, digVal_cons, hlen'] at hv
      have hvs := digVal_lt cs hs.2
      have hvt := digVal_lt ds ht.2
      rw [hlen'] at hvs
      have hda : c.toNat - 48 = d.toNat - 48 := by
        by_contra hne
        rcases Nat.lt_or_ge (c.toNat - 48) (d.toNat - 48) with hlt | hge
        · have : (c.toNat - 48) * 10 ^ ds.length + digVal cs <
              (d.toNat - 48) * 10 ^ ds.length + digVal ds := by
            calc (c.toNat - 48) * 10 ^ ds.length + digVal cs
                < (c.toNat - 48) * 10 ^ ds.length + 10 ^ ds.length := by omega
              _ = (c.toNat - 48 + 1) * 10 ^ ds.length := by ring
              _ ≤ (d.toNat - 48) * 10 ^ ds.length := Nat.mul_le_mul_right _ (by omega)
              _ ≤ (d.toNat - 48) * 10 ^ ds.length + digVal ds := Nat.le_add_right _ _
          omega
        · have hlt : d.toNat - 48 < c.toNat - 48 := by omega
          have : (d.toNat - 48) * 10 ^ ds.length + digVal ds <
              (c.toNat - 48) * 10 ^ ds.length + digVal cs := by
            calc (d.toNat - 48) * 10 ^ ds.length + digVal ds
                < (d.toNat - 48) * 10 ^ ds.length + 10 ^ ds.length := by omega
              _ = (d.toNat - 48 + 1) * 10 ^ ds.length := by ring
              _ ≤ (c.toNat - 48) * 10 ^ ds.length := Nat.mul_le_mul_right _ (by omega)
              _ ≤ (c.toNat - 48) * 10 ^ ds.length + digVal cs := Nat.le_add_right _ _
          omega
      have hb1 := digit_toNat_bounds c hs.1
      have hb2 := digit_toNat_bounds d ht.1
      have hcd : c = d := char_toNat_inj c d (by omega)
      rw [hda] at hv
      have htails : digVal cs = digVal ds := by omega
      rw [hcd, ih ds hlen' hs.2 ht.2 htails]

theorem numIdOk_parts (s : List Char) (h : numIdOk s = true) :
    s ≠ [] ∧ s.all Char.isDigit = true ∧
      (∀ c cs, s = c :: cs → cs ≠ [] → c ≠ '0') := by
  cases s with
  | nil => exact absurd h (by rw [numIdOk]; simp)
  | cons c cs =>
    rw [numIdOk, Bool.and_eq_true, Bool.and_eq_true, Bool.or_eq_true] at h
    obtain ⟨⟨h1, h2⟩, h3⟩ := h
    refine ⟨by simp, by rw [List.all_cons, Bool.and_eq_true]; exact ⟨h1, h2⟩, ?_⟩
    intro c' cs' heq hne
    rw [List.cons.injEq] at heq
    rcases h3 with h3 | h3
    · rw [← heq.1]; simpa using h3
    · exact absurd (heq.2 ▸ (by simpa using h3)) hne

theorem numIdOk_lt_of_shorter (s t : List Char) (hs : numIdOk s = true)
    (ht : numIdOk t = true) (hlen : s.length < t.length) : digVal s < digVal t := by
  obtain ⟨hs1, hs2, _⟩ := numIdOk_parts s hs
  obtain ⟨ht1, ht2, ht3⟩ := numIdOk_parts t ht
  cases t with
  | nil => exact absurd rfl ht1
  | cons d ds =>
    cases ds with
    | nil =>
      cases s with
      | nil => exact absurd rfl hs1
      | cons c cs => simp at hlen
    | cons e es =>
      have h0 : d ≠ '0' := ht3 d (e :: es) rfl (by simp)
      have hdd : d.isDigit = true := by
        rw [List.all_cons, Bool.and_eq_true] at ht2
        exact ht2.1
      have h1 := digVal_lt s hs2
      have h2 := digVal_ge d (e :: es) hdd h0
      have h3 : 10 ^ s.length ≤ 10 ^ (e :: es).length :=
        Nat.pow_le_pow_right (by norm_num) (by simp at hlen ⊢; omega)
      omega

theorem numIdOk_inj (s t : List Char) (hs : numIdOk s = true) (ht : numIdOk t = true)
    (hv : digVal s = digVal t) : s = t := by
  rcases Nat.lt_trichotomy s.length t.length with h | h | h
  · exact absurd hv (Nat.ne_of_lt (numIdOk_lt_of_shorter s t hs ht h))
  · exact digVal_inj_len s t h (numIdOk_parts s hs).2.1 (numIdOk_parts t ht).2.1 hv
  · exact absurd hv.symm (Nat.ne_of_lt (numIdOk_lt_of_shorter t s ht hs h))

/-! ## Version ordering: valid identifiers and dotted strings -/

theorem preIdOk_parts (s : List Char) (h : preIdOk s = true) :
    s ≠ [] ∧ (s.all Char.isDigit = true → numIdOk s = true) := by
  rw [preIdOk, Bool.and_eq_true, Bool.and_eq_true] at h
  exact ⟨by simpa using h.1.1, of_decide_eq_true h.2⟩

theorem toIdent_inj (p q : List Char) (hp : preIdOk p = true) (hq : preIdOk q = true)
    (h : toIdent p = toIdent q) : p = q := by
  rw [toIdent, toIdent] at h
  split at h
  · rename_i hpd
    split at h
    · rename_i hqd
      exact numIdOk_inj p q ((preIdOk_parts p hp).2 hpd.2) ((preIdOk_parts q hq).2 hqd.2)
        (Sum.inl.inj h)
    · exact Sum.noConfusion h
  · split at h
    · exact Sum.noConfusion h
    · exact Sum.inr.inj h

theorem splitDots_ne_nil : ∀ s : List Char, splitDots s ≠ [] := by
  intro s
  cases s with
  | nil => simp [splitDots]
  | cons c cs =>
    rw [splitDots]
    split
    · simp
    · split <;> simp

theorem joinDots_splitDots : ∀ s : List Char, joinDots (splitDots s) = s := by
  intro s
  induction s with
  | nil => rfl
  | cons c cs ih =>
    rw [splitDots]
    split
    · rename_i hc
      rcases hsp : splitDots cs with _ | ⟨p, ps⟩
      · exact absurd hsp (splitDots_ne_nil cs)
      · rw [hsp] at ih
        rw [joinDots, List.nil_append, ← ih, hc]
    · rename_i hc
      rcases hsp : splitDots cs with _ | ⟨p, ps⟩
      · exact absurd hsp (splitDots_ne_nil cs)
      · rw [hsp] at ih
        show joinDots ((c :: p) :: ps) = c :: cs
        cases ps with
        | nil =>
          rw [joinDots] at ih ⊢
          rw [ih]
        | cons q qs =>
          rw [joinDots] at ih ⊢
          rw [List.cons_append, ih]

theorem joinDots_append_cons :
    ∀ (ps : List (List Char)) (q : List Char) (qs : List (List Char)), ps ≠ [] →
      joinDots (ps ++ q :: qs) = joinDots ps ++ '.' :: joinDots (q :: qs) := by
  intro ps
  induction ps with
  | nil => intro q qs h; exact absurd rfl h
  | cons p ps ih =>
    intro q qs _
    cases ps with
    | nil => rfl
    | cons p2 ps2 =>
      rw [List.cons_append, List.cons_append, joinDots, ← List.cons_append,
        ih q qs (by simp), joinDots, List.append_assoc]
      rfl

theorem joinDots_prefix_length (as bs : List (List Char)) (hne : as ≠ [])
    (h : as <+: bs) :
    (joinDots as).length ≤ (joinDots bs).length ∧
      (as.length < bs.length → (joinDots as).length < (joinDots bs).length) := by
  obtain ⟨rest, hrest⟩ := h
  rw [← hrest]
  cases rest with
  | nil => simp
  | cons q qs =>
    rw [joinDots_append_cons as q qs hne]
    constructor
    · simp
    · intro _
      rw [List.length_append, List.length_cons]
      omega

theorem preOk_members (s : List Char) (h : preOk s = true) :
    ∀ p ∈ splitDots s, preIdOk p = true := by
  rw [preOk, List.all_eq_true] at h
  exact h

theorem map_toIdent_prefix :
    ∀ (as bs : List (List Char)),
      (∀ a ∈ as, preIdOk a = true) → (∀ b ∈ bs, preIdOk b = true) →
      as.map toIdent <+: bs.map toIdent → as <+: bs := by
  intro as
  induction as with
  | nil => intro bs _ _ _; exact List.nil_prefix
  | cons a as ih =>
    intro bs ha hb h
    cases bs with
    | nil =>
      rw [List.map_cons, List.map_nil, List.prefix_nil] at h
      exact List.noConfusion h
    | cons b bs =>
      rw [List.map_cons, List.map_cons, List.cons_prefix_cons] at h
      rw [List.cons_prefix_cons]
      exact ⟨toIdent_inj a b (ha a (by simp)) (hb b (by simp)) h.1,
        ih bs (fun x hx => ha x (by simp [hx])) (fun x hx => hb x (by simp [hx])) h.2⟩

theorem ids_prefix_len (s t : List Char) (hs : preOk s = true) (ht : preOk t = true)
    (h : idsOf s <+: idsOf t) :
    s.length ≤ t.length ∧
      ((idsOf s).length < (idsOf t).length → s.length < t.length) ∧
      (idsOf s = idsOf t → s = t) := by
  have hparts : splitDots s <+: splitDots t :=
    map_toIdent_prefix _ _ (preOk_members s hs) (preOk_members t ht) h
  have hlen := joinDots_prefix_length (splitDots s) (splitDots t) (splitDots_ne_nil s) hparts
  rw [joinDots_splitDots, joinDots_splitDots] at hlen
  refine ⟨hlen.1, ?_, ?_⟩
  · intro hl
    apply hlen.2
    rw [idsOf, idsOf, List.length_map, List.length_map] at hl
    exact hl
  · intro heq
    have hpeq : splitDots s = splitDots t := by
      apply List.IsPrefix.eq_of_length hparts
      have := congrArg List.length heq
      rw [idsOf, idsOf, List.length_map, List.length_map] at this
      exact this
    rw [← joinDots_splitDots s, hpeq, joinDots_splitDots]

/-! ## Version ordering: `_nat_cmp` on valid prerelease strings -/

theorem natCmp_swap (a b : List Char) : natCmp a b = (natCmp b a).swap := by
  rw [natCmp, natCmp, swap_then, ← zipCmp_swap, ← natCompare_swap]

theorem zip_nil_valid_ne (s : List Char) (hs : preOk s = true) :
    zipCmp (idsOf []) (idsOf s) ≠ .eq := by
  rcases hsp : splitDots s with _ | ⟨p, ps⟩
  · exact absurd hsp (splitDots_ne_nil s)
  · have hp : preIdOk p = true := preOk_members s hs p (by rw [hsp]; simp)
    have hpne : p ≠ [] := (preIdOk_parts p hp).1
    intro h
    rw [idsOf, idsOf, hsp, List.map_cons,
      show splitDots ([] : List Char) = [[]] from rfl, List.map_cons, List.map_nil,
      zipCmp, then_eq_eq, tagCmp_eq_iff] at h
    have htag := h.1
    rw [show toIdent ([] : List Char) = Sum.inr [] from rfl, toIdent] at htag
    split at htag
    · exact Sum.noConfusion htag
    · exact hpne (Sum.inr.inj htag).symm

theorem natCmp_eq_valid (a b : List Char) (ha : preOk a = true) (hb : preOk b = true)
    (h : natCmp a b = .eq) : a = b := by
  rw [natCmp, then_eq_eq] at h
  obtain ⟨hz, hl⟩ := h
  rw [Nat.compare_eq_eq] at hl
  rw [zipCmp_eq_iff] at hz
  rcases hz with hz | hz
  · rcases Nat.lt_or_ge (idsOf a).length (idsOf b).length with hlt | hge
    · have := (ids_prefix_len a b ha hb hz).2.1 hlt
      omega
    · exact (ids_prefix_len a b ha hb hz).2.2
        (List.IsPrefix.eq_of_length hz (Nat.le_antisymm hz.length_le hge))
  · rcases Nat.lt_or_ge (idsOf b).length (idsOf a).length with hlt | hge
    · have := (ids_prefix_len b a hb ha hz).2.1 hlt
      omega
    · exact ((ids_prefix_len b a hb ha hz).2.2
        (List.IsPrefix.eq_of_length hz (Nat.le_antisymm hz.length_le hge))).symm

theorem prefix_dir (a b : List Char) (ha : preOk a = true) (hb : preOk b = true)
    (h : zipCmp (idsOf a) (idsOf b) = .eq) (hlen : b.length < a.length) :
    idsOf b <+: idsOf a := by
  rw [zipCmp_eq_iff] at h
  rcases h with h | h
  · have := (ids_prefix_len a b ha hb h).1
    omega
  · exact h

theorem natCmp_gt_trans_valid (a b c : List Char) (ha : preOk a = true)
    (hb : preOk b = true) (hc : preOk c = true)
    (h1 : natCmp a b = .gt) (h2 : natCmp b c = .gt) : natCmp a c = .gt := by
  rw [natCmp, then_eq_gt] at h1 h2 ⊢
  rcases h1 with h1 | ⟨h1, h1l⟩
  · rcases h2 with h2 | ⟨h2, h2l⟩
    · exact Or.inl (zipCmp_gt_trans _ _ _ h1 h2)
    · rw [Nat.compare_eq_gt] at h2l
      have hdir : idsOf c <+: idsOf b := prefix_dir b c hb hc h2 h2l
      rcases zipCmp_gt_prefix_right _ _ _ h1 hdir with hg | ⟨hpfx, hlt⟩
      · exact Or.inl hg
      · refine Or.inr ⟨?_, ?_⟩
        · rw [zipCmp_eq_iff]; exact Or.inr hpfx
        · rw [Nat.compare_eq_gt]
          exact (ids_prefix_len c a hc ha hpfx).2.1 hlt
  · rcases h2 with h2 | ⟨h2, h2l⟩
    · rw [Nat.compare_eq_gt] at h1l
      have hdir : idsOf b <+: idsOf a := prefix_dir a b ha hb h1 h1l
      exact Or.inl (zipCmp_gt_prefix_left _ _ _ h2 hdir)
    · rw [Nat.compare_eq_gt] at h1l h2l
      have hd1 : idsOf b <+: idsOf a := prefix_dir a b ha hb h1 h1l
      have hd2 : idsOf c <+: idsOf b := prefix_dir b c hb hc h2 h2l
      refine Or.inr ⟨?_, ?_⟩
      · rw [zipCmp_eq_iff]; exact Or.inr (hd2.trans hd1)
      · rw [Nat.compare_eq_gt]; omega

/-! ## Version ordering: prerelease comparison -/

theorem preOk_ne_nil (s : List Char) (hs : preOk s = true) : s ≠ [] := by
  intro h
  subst h
  exact absurd hs (by decide)

theorem preCmp_expand (a b : Option (List Char)) :
    preCmp a b =
      (if natCmp (a.getD []) (b.getD []) = .eq then Ordering.eq
       else if (a.getD []).isEmpty then Ordering.gt
       else if (b.getD []).isEmpty then Ordering.lt
       else natCmp (a.getD []) (b.getD [])) := rfl

theorem preCmp_swap (a b : Option (List Char)) : preCmp a b = (preCmp b a).swap := by
  rw [preCmp_expand, preCmp_expand]
  have hsw := natCmp_swap (a.getD []) (b.getD [])
  by_cases he : natCmp (b.getD []) (a.getD []) = .eq
  · rw [if_pos he, if_pos (by rw [hsw, he]; rfl)]
    rfl
  · have hne : ¬ natCmp (a.getD []) (b.getD []) = .eq := by
      rw [hsw]
      intro h
      apply he
      cases hM : natCmp (b.getD []) (a.getD [])
      · rw [hM] at h; exact Ordering.noConfusion h
      · rfl
      · rw [hM] at h; exact Ordering.noConfusion h
    rw [if_neg he, if_neg hne]
    by_cases hae : (a.getD []).isEmpty
    · by_cases hbe : (b.getD []).isEmpty
      · exfalso
        rw [List.isEmpty_iff] at hae hbe
        rw [hae, hbe] at hne
        exact hne rfl
      · rw [if_pos hae, if_neg hbe, if_pos hae]
        rfl
    · by_cases hbe : (b.getD []).isEmpty
      · rw [if_neg hae, if_pos hbe, if_pos hbe]
        rfl
      · rw [if_neg hae, if_neg hbe, if_neg hbe, if_neg hae, hsw]

/-- Validity of the prerelease field: `none`, or a string of valid
identifiers (what `Version.parse` produces). -/
theorem preCmp_eq_valid (a b : Option (List Char))
    (ha : ∀ s, a = some s → preOk s = true) (hb : ∀ s, b = some s → preOk s = true)
    (h : preCmp a b = .eq) : a = b := by
  rw [preCmp_expand] at h
  have hnat : natCmp (a.getD []) (b.getD []) = .eq := by
    by_contra hne
    rw [if_neg hne] at h
    split at h
    · exact Ordering.noConfusion h
    · split at h
      · exact Ordering.noConfusion h
      · exact hne h
  cases a with
  | none =>
    cases b with
    | none => rfl
    | some t =>
      have ht := hb t rfl
      rw [natCmp, then_eq_eq] at hnat
      exact absurd hnat.1 (zip_nil_valid_ne t ht)
  | some s =>
    have hs := ha s rfl
    cases b with
    | none =>
      rw [natCmp, then_eq_eq] at hnat
      simp only [Option.getD_some, Option.getD_none] at hnat
      have : zipCmp (idsOf []) (idsOf s) = .eq := by
        rw [zipCmp_swap, hnat.1]
        rfl
      exact absurd this (zip_nil_valid_ne s hs)
    | some t =>
      have ht := hb t rfl
      rw [natCmp_eq_valid s t hs ht hnat]

theorem getD_preOk (o : Option (List Char)) (ho : ∀ s, o = some s → preOk s = true)
    (hne : (o.getD []).isEmpty = false) : preOk (o.getD []) = true := by
  cases o with
  | none => simp at hne
  | some s => exact ho s rfl

theorem natCmp_nil_ne (o : Option (List Char)) (ho : ∀ s, o = some s → preOk s = true)
    (hne : (o.getD []).isEmpty = false) : natCmp [] (o.getD []) ≠ .eq := by
  cases o with
  | none => simp at hne
  | some t =>
    have ht := ho t rfl
    intro h
    rw [natCmp, then_eq_eq] at h
    exact zip_nil_valid_ne t ht h.1

theorem preCmp_gt_cases (a b : Option (List Char)) (h : preCmp a b = .gt) :
    (natCmp (a.getD []) (b.getD []) ≠ .eq ∧ (a.getD []).isEmpty = true) ∨
      ((a.getD []).isEmpty = false ∧ (b.getD []).isEmpty = false ∧
        natCmp (a.getD []) (b.getD []) = .gt) := by
  rw [preCmp_expand] at h
  by_cases he : natCmp (a.getD []) (b.getD []) = .eq
  · rw [if_pos he] at h
    exact Ordering.noConfusion h
  · rw [if_neg he] at h
    by_cases hae : (a.getD []).isEmpty
    · exact Or.inl ⟨he, hae⟩
    · rw [if_neg hae] at h
      by_cases hbe : (b.getD []).isEmpty
      · rw [if_pos hbe] at h
        exact Ordering.noConfusion h
      · rw [if_neg hbe] at h
        exact Or.inr ⟨by simpa using hae, by simpa using hbe, h⟩

theorem preCmp_gt_trans_valid (a b c : Option (List Char))
    (ha : ∀ s, a = some s → preOk s = true) (hb : ∀ s, b = some s → preOk s = true)
    (hc : ∀ s, c = some s → preOk s = true)
    (h1 : preCmp a b = .gt) (h2 : preCmp b c = .gt) : preCmp a c = .gt := by
  rcases preCmp_gt_cases a b h1 with ⟨hne1, hae⟩ | ⟨hae, hbe, hg1⟩
  · have hce : (c.getD []).isEmpty = false := by
      rcases preCmp_gt_cases b c h2 with ⟨hne2, hbe⟩ | ⟨_, hce, _⟩
      · by_contra hh
        rw [Bool.not_eq_false, List.isEmpty_iff] at hh
        rw [List.isEmpty_iff] at hbe
        rw [hbe, hh] at hne2
        exact hne2 rfl
      · exact hce
    rw [preCmp_expand]
    rw [List.isEmpty_iff] at hae
    rw [if_neg (by rw [hae]; exact natCmp_nil_ne c hc hce), hae]
    rw [if_pos (by rfl)]
  · rcases preCmp_gt_cases b c h2 with ⟨_, hbe'⟩ | ⟨_, hce, hg2⟩
    · rw [hbe] at hbe'
      exact Bool.noConfusion hbe'
    · have hA := getD_preOk a ha hae
      have hB := getD_preOk b hb hbe
      have hC := getD_preOk c hc hce
      have hg := natCmp_gt_trans_valid _ _ _ hA hB hC hg1 hg2
      rw [preCmp_expand]
      rw [if_neg (by rw [hg]; intro hh; exact Ordering.noConfusion hh)]
      rw [if_neg (by rw [hae]; intro hh; exact Bool.noConfusion hh)]
      rw [if_neg (by rw [hce]; intro hh; exact Bool.noConfusion hh)]
      exact hg

/-! ## Version ordering: the full `Version` comparison -/

theorem vcmp_gt_iff (a b : Version) : vcmp a b = .gt ↔
    b.major < a.major ∨ (a.major = b.major ∧ (b.minor < a.minor ∨ (a.minor = b.minor ∧
      (b.patch < a.patch ∨ (a.patch = b.patch ∧
        preCmp a.prerelease b.prerelease = .gt))))) := by
  rw [vcmp, then_eq_gt, then_eq_gt, then_eq_gt, Nat.compare_eq_gt, Nat.compare_eq_eq,
    Nat.compare_eq_gt, Nat.compare_eq_eq, Nat.compare_eq_gt, Nat.compare_eq_eq]

theorem vcmp_eq_iff (a b : Version) : vcmp a b = .eq ↔
    a.major = b.major ∧ a.minor = b.minor ∧ a.patch = b.patch ∧
      preCmp a.prerelease b.prerelease = .eq := by
  rw [vcmp, then_eq_eq, then_eq_eq, then_eq_eq, Nat.compare_eq_eq, Nat.compare_eq_eq,
    Nat.compare_eq_eq]

theorem validVer_pre (v : Version) (h : validVer v = true) :
    ∀ s, v.prerelease = some s → preOk s = true := by
  intro s hs
  simp only [validVer, hs] at h
  exact h

theorem vcmp_swap (a b : Version) : vcmp a b = (vcmp b a).swap := by
  rw [vcmp, vcmp, swap_then, swap_then, swap_then, ← natCompare_swap, ← natCompare_swap,
    ← natCompare_swap, ← preCmp_swap]

theorem vcmp_self (v : Version) : vcmp v v = .eq := by
  rw [vcmp_eq_iff]
  have hx : natCmp (v.prerelease.getD []) (v.prerelease.getD []) = .eq := by
    rw [natCmp, then_eq_eq]
    exact ⟨(zipCmp_eq_iff _ _).mpr (Or.inl (List.prefix_refl _)),
      Nat.compare_eq_eq.mpr rfl⟩
  exact ⟨rfl, rfl, rfl, by rw [preCmp_expand, if_pos hx]⟩

theorem vcmp_gt_trans_valid (a b c : Version) (ha : validVer a = true)
    (hb : validVer b = true) (hc : validVer c = true)
    (h1 : vcmp a b = .gt) (h2 : vcmp b c = .gt) : vcmp a c = .gt := by
  rw [vcmp_gt_iff] at h1 h2 ⊢
  rcases h1 with h1 | ⟨e1, h1⟩
  · rcases h2 with h2 | ⟨e2, _⟩
    · exact Or.inl (by omega)
    · exact Or.inl (by omega)
  · rcases h2 with h2 | ⟨e2, h2⟩
    · exact Or.inl (by omega)
    · refine Or.inr ⟨by omega, ?_⟩
      rcases h1 with h1 | ⟨e1m, h1⟩
      · rcases h2 with h2 | ⟨e2m, _⟩
        · exact Or.inl (by omega)
        · exact Or.inl (by omega)
      · rcases h2 with h2 | ⟨e2m, h2⟩
        · exact Or.inl (by omega)
        · refine Or.inr ⟨by omega, ?_⟩
          rcases h1 with h1 | ⟨e1p, h1⟩
          · rcases h2 with h2 | ⟨e2p, _⟩
            · exact Or.inl (by omega)
            · exact Or.inl (by omega)
          · rcases h2 with h2 | ⟨e2p, h2⟩
            · exact Or.inl (by omega)
            · refine Or.inr ⟨by omega, ?_⟩
              exact preCmp_gt_trans_valid _ _ _ (validVer_pre a ha) (validVer_pre b hb)
                (validVer_pre c hc) h1 h2

theorem vcmp_eq_key (a b : Version) (ha : validVer a = true) (hb : validVer b = true)
    (h : vcmp a b = .eq) :
    a.major = b.major ∧ a.minor = b.minor ∧ a.patch = b.patch ∧
      a.prerelease = b.prerelease := by
  rw [vcmp_eq_iff] at h
  exact ⟨h.1, h.2.1, h.2.2.1,
    preCmp_eq_valid _ _ (validVer_pre a ha) (validVer_pre b hb) h.2.2.2⟩

theorem vcmp_resolve (a b c : Version) (ha : validVer a = true) (hb : validVer b = true)
    (hc : validVer c = true) (hgt : vcmp a c = .gt) (hng : vcmp a b ≠ .gt) :
    vcmp b c = .gt := by
  rcases hab : vcmp a b with _ | _ | _
  · have hba : vcmp b a = .gt := by
      rw [vcmp_swap] at hab
      cases hM : vcmp b a
      · rw [hM] at hab; exact Ordering.noConfusion hab
      · rw [hM] at hab; exact Ordering.noConfusion hab
      · rfl
    exact vcmp_gt_trans_valid b a c hb ha hc hba hgt
  · have hkey := vcmp_eq_key a b ha hb hab
    have hbc : vcmp b c = vcmp a c := by
      rw [vcmp, vcmp, ← hkey.1, ← hkey.2.1, ← hkey.2.2.1, ← hkey.2.2.2]
    rw [hbc]
    exact hgt
  · exact absurd hab hng

/-! ## Claim C4: the latest alias -/

theorem dynValid_inl (d : VerDyn) (h : dynValid d = true) :
    ∀ v : Version, d = .inl v → validVer v = true := by
  intro v hv
  rw [hv] at h
  exact h

theorem beatsLatest_true (c : Compiler) (latest : Option Compiler)
    (h : beatsLatest c latest = true) :
    ∃ v, c.ver = .inl v ∧
      ∀ l, latest = some l → ∀ w, l.ver = .inl w → vcmp v w = .gt := by
  obtain ⟨cid, ctitle, ccmd, cn, cver⟩ := c
  rcases cver with v | s
  · refine ⟨v, rfl, ?_⟩
    intro l hl w hw
    subst hl
    obtain ⟨lid, ltitle, lcmd, ln, lver⟩ := l
    rcases lver with lv | ls
    · have hw' : Sum.inl (β := List Char) lv = Sum.inl w := hw
      have hlv : lv = w := Sum.inl.inj hw'
      subst hlv
      exact of_decide_eq_true (h : decide (vcmp v lv = Ordering.gt) = true)
    · exact Bool.noConfusion (h : false = true)
  · cases latest with
    | none => exact Bool.noConfusion (h : false = true)
    | some l => exact Bool.noConfusion (h : false = true)

theorem beatsLatest_false_some (c l : Compiler) (v w : Version)
    (hv : c.ver = .inl v) (hw : l.ver = .inl w)
    (h : beatsLatest c (some l) = false) : vcmp v w ≠ .gt := by
  obtain ⟨cid, ctitle, ccmd, cn, cver⟩ := c
  obtain ⟨lid, ltitle, lcmd, ln, lver⟩ := l
  have hv' : cver = Sum.inl v := hv
  have hw' : lver = Sum.inl w := hw
  subst hv'
  subst hw'
  intro hh
  have h' : decide (vcmp v w = Ordering.gt) = false := h
  exact Bool.noConfusion ((decide_eq_true hh).symm.trans h')

theorem beatsLatest_none_inl (c : Compiler) (v : Version)
    (hv : c.ver = .inl v) : beatsLatest c none = true := by
  obtain ⟨cid, ctitle, ccmd, cn, cver⟩ := c
  have hv' : cver = Sum.inl v := hv
  subst hv'
  rfl

theorem findLatest_spec (name : List Char) :
    ∀ (cs : List Compiler) (acc : Option Compiler),
      (∀ c ∈ cs, ∀ v : Version, c.ver = .inl v → validVer v = true) →
      (∀ a, acc = some a → a.name = some name ∧
        ∃ v, a.ver = .inl v ∧ validVer v = true) →
      ∀ L, cs.foldl (fun latest c =>
          if c.name = some name ∧ beatsLatest c latest then some c else latest) acc =
        some L →
      (L ∈ cs ∨ acc = some L) ∧ L.name = some name ∧
        ∃ v, L.ver = .inl v ∧ validVer v = true ∧
          (∀ c ∈ cs, c.name = some name → ∀ w, c.ver = .inl w →
            validVer w = true → vcmp w v ≠ .gt) ∧
          (∀ a, acc = some a → ∀ w, a.ver = .inl w → vcmp w v ≠ .gt) := by
  intro cs
  induction cs with
  | nil =>
    intro acc _ hacc L hfold
    rw [List.foldl_nil] at hfold
    obtain ⟨hname, v, hver, hvalid⟩ := hacc L hfold
    refine ⟨Or.inr hfold, hname, v, hver, hvalid, ?_, ?_⟩
    · intro c hc
      exact absurd hc (List.not_mem_nil c)
    · intro a ha w hw
      rw [hfold] at ha
      rw [Option.some_inj] at ha
      rw [← ha, hver] at hw
      rw [Sum.inl.injEq] at hw
      rw [← hw, vcmp_self]
      intro hh
      exact Ordering.noConfusion hh
  | cons c rest ih =>
    intro acc hv hacc L hfold
    rw [List.foldl_cons] at hfold
    have hvrest : ∀ c' ∈ rest, ∀ v : Version, c'.ver = .inl v → validVer v = true :=
      fun c' hc' => hv c' (List.mem_cons_of_mem c hc')
    by_cases hcond : c.name = some name ∧ beatsLatest c acc
    · rw [if_pos hcond] at hfold
      obtain ⟨vc, hvc, hbeats⟩ := beatsLatest_true c acc hcond.2
      have hvcvalid : validVer vc = true := hv c (List.mem_cons_self c rest) vc hvc
      have hacc' : ∀ a, some c = some a → a.name = some name ∧
          ∃ v, a.ver = .inl v ∧ validVer v = true := by
        intro a ha
        rw [Option.some_inj] at ha
        rw [← ha]
        exact ⟨hcond.1, vc, hvc, hvcvalid⟩
      obtain ⟨hmem, hname, vL, hvL, hvLvalid, hmax, haccmax⟩ :=
        ih (some c) hvrest hacc' L hfold
      have hcmax : ∀ w, c.ver = .inl w → vcmp w vL ≠ .gt :=
        fun w hw => haccmax c rfl w hw
      refine ⟨?_, hname, vL, hvL, hvLvalid, ?_, ?_⟩
      · rcases hmem with h | h
        · exact Or.inl (List.mem_cons_of_mem c h)
        · rw [Option.some_inj] at h
          exact Or.inl (h ▸ List.mem_cons_self c rest)
      · intro c' hc' hc'n w hw hwv
        rcases List.mem_cons.mp hc' with h | h
        · rw [h] at hw
          exact hcmax w hw
        · exact hmax c' h hc'n w hw hwv
      · intro a ha w hw
        have hwvalid : validVer w = true := by
          obtain ⟨_, va, hva, hvav⟩ := hacc a ha
          rw [hva] at hw
          rw [Sum.inl.injEq] at hw
          rw [← hw]
          exact hvav
        have hcw : vcmp vc w = .gt := hbeats a ha w hw
        intro hwgt
        exact hcmax vc hvc
          (vcmp_gt_trans_valid vc w vL hvcvalid hwvalid hvLvalid hcw hwgt)
    · rw [if_neg hcond] at hfold
      obtain ⟨hmem, hname, vL, hvL, hvLvalid, hmax, haccmax⟩ :=
        ih acc hvrest hacc L hfold
      refine ⟨?_, hname, vL, hvL, hvLvalid, ?_, haccmax⟩
      · rcases hmem with h | h
        · exact Or.inl (List.mem_cons_of_mem c h)
        · exact Or.inr h
      · intro c' hc' hc'n w hw hwv
        rcases List.mem_cons.mp hc' with h | h
        · subst h
          have hnb : beatsLatest c' acc = false := by
            cases hb : beatsLatest c' acc
            · rfl
            · exact absurd ⟨hc'n, hb⟩ hcond
          cases hA : acc with
          | none =>
            rw [hA] at hnb
            exact absurd ((beatsLatest_none_inl c' w hw).symm.trans hnb)
              (by intro hh; exact Bool.noConfusion hh)
          | some a =>
            obtain ⟨_, va, hva, hvav⟩ := hacc a hA
            rw [hA] at hnb
            have hng := beatsLatest_false_some c' a w va hw hva hnb
            intro hwgt
            have := vcmp_resolve w va vL hwv hvav hvLvalid hwgt hng
            exact haccmax a hA va hva this
        · exact hmax c' h hc'n w hw hwv

/-- C4 counterexample: on the Scenario-D catalog (gcc at 10.3.0, 11.2.0
and prerelease 12.0.0-trunk) the "latest" alias resolves to the
12.0.0-trunk descriptor g120, not the 11.2.0 descriptor g112 as the claim
states: `_add_latest_compiler` does not exclude prerelease versions, and
semver orders 12.0.0-trunk above 11.2.0. -/
theorem latest_alias_counterexample :
    (get_compiler_by_command (load demoRaws) "gcc".data).map Compiler.id =
      some "g120".data ∧
    some "g120".data ≠ (some "g112".data : Option (List Char)) := by
  constructor
  · decide
  · decide

/-- C4 (amended): for compilers whose structured versions are valid (as
all parsed versions are), a found latest descriptor belongs to the list,
carries the toolchain name and a structured version, no structured version
of the toolchain compares strictly greater than it — prereleases included
— and `_add_latest_compiler` appends exactly the alias made from it with
the toolchain name as command. -/
theorem latest_alias_max (name : List Char) (cs : List Compiler)
    (hv : ∀ c ∈ cs, dynValid c.ver = true)
    (L : Compiler) (hL : findLatest name cs = some L) :
    L ∈ cs ∧ L.name = some name ∧
      (∃ v : Version, L.ver = .inl v ∧
        ∀ c ∈ cs, c.name = some name → ∀ w : Version, c.ver = .inl w →
          vcmp w v ≠ .gt) ∧
      _add_latest_compiler name cs =
        cs ++ [Compiler.make L.id "(latest)".data L.title (some name)] := by
  have hv' : ∀ c ∈ cs, ∀ v : Version, c.ver = .inl v → validVer v = true :=
    fun c hc => dynValid_inl c.ver (hv c hc)
  have hL' := hL
  rw [findLatest] at hL'
  obtain ⟨hmem, hname, v, hver, _, hmax, _⟩ :=
    findLatest_spec name cs none hv' (fun a ha => Option.noConfusion ha) L hL'
  refine ⟨?_, hname, ⟨v, hver, ?_⟩, ?_⟩
  · rcases hmem with h | h
    · exact h
    · exact Option.noConfusion h
  · intro c hc hcn w hw
    exact hmax c hc hcn w hw (hv' c hc w hw)
  · rw [_add_latest_compiler, hL]

/-- C4 witness: the amended theorem evaluated on the one-descriptor demo
registry, whose latest gcc is the 10.3.0 descriptor itself. -/
theorem latest_alias_max_witness :
    Compiler.make "g103".data "10.3.0".data "x86-64 gcc 10.3".data none ∈ demoRegistry ∧
    (Compiler.make "g103".data "10.3.0".data "x86-64 gcc 10.3".data none).name =
      some "gcc".data ∧
    (∃ v : Version,
      (Compiler.make "g103".data "10.3.0".data "x86-64 gcc 10.3".data none).ver =
        .inl v ∧
      ∀ c ∈ demoRegistry, c.name = some "gcc".data → ∀ w : Version,
        c.ver = .inl w → vcmp w v ≠ .gt) ∧
    _add_latest_compiler "gcc".data demoRegistry =
      demoRegistry ++
        [Compiler.make
          (Compiler.make "g103".data "10.3.0".data "x86-64 gcc 10.3".data none).id
          "(latest)".data
          (Compiler.make "g103".data "10.3.0".data "x86-64 gcc 10.3".data none).title
          (some "gcc".data)] :=
  latest_alias_max "gcc".data demoRegistry (by decide)
    (Compiler.make "g103".data "10.3.0".data "x86-64 gcc 10.3".data none) (by decide)

end Godbot
